import Mathlib

/-!
# Verification of the `inferStatus` scripts

A shallow embedding of `scripts/inferStatus.js` (two variants separated by a
document marker in the file: the first is the scoring variant, the second the
explicit-status-only variant) together with proofs about the embedded
definitions.

Modelling conventions:
* JavaScript `Map` objects are modelled as association lists with JS `Map`
  semantics (`set` replaces in place or appends; `get` finds the first match;
  iteration order is insertion order).
* Regular expressions in the source are alternations of literal substrings
  (the single `?`-pattern `/paused?/` is equivalent, as a test, to containing
  the literal `"pause"`), so each pattern is modelled as a list of literal
  alternatives tested by substring containment; `/i`-flagged role patterns
  lower-case the subject first.
* `Date.parse` belongs to the JS runtime, not to this repository; it is
  modelled as an abstract parameter `pd : String → Option Int` (milliseconds
  on success, `none` for `NaN`).
* `String.prototype.localeCompare` is likewise runtime/locale supplied; it is
  modelled as lexicographic string comparison (spec §4.5: "a secondary
  document/sequence identifier field, lexicographically").  No theorem below
  depends on its exact semantics beyond sign antisymmetry.
* Every score in the program is a non-negative multiple of ½ (keyword match
  = 1 point, role weights = 3 or 2.5).  Scores are therefore stored in
  half-point units as naturals: a keyword match contributes `2`, the weights
  are `6` and `5`.  Doubling is an order isomorphism fixing `0`, so every
  comparison the program performs (`score <= 0`, `score > best.score`,
  `score === best.score`) is unchanged.
* Text processing (lower-casing, trimming, joining) is done on `List Char`,
  with ASCII-faithful lowering and the ASCII whitespace set for `trim`.
-/

namespace IS

/-- `startsWithL t p`: the char list `p` is an initial segment of `t`. -/
def startsWithL : List Char → List Char → Bool
  | _, [] => true
  | [], _ :: _ => false
  | c :: cs, p :: ps => c == p && startsWithL cs ps

/-- `containsSub t p`: the char list `p` occurs contiguously inside `t`. -/
def containsSub (t p : List Char) : Bool :=
  match t with
  | [] => startsWithL [] p
  | _ :: ts => startsWithL t p || containsSub ts p

/-- JS `String.prototype.toLowerCase` on the characters of a string
(ASCII-faithful). -/
def lowerL (l : List Char) : List Char :=
  l.map Char.toLower

/-- `String.prototype.trim`, modelled on the ASCII whitespace set. -/
def trimL (l : List Char) : List Char :=
  ((l.dropWhile Char.isWhitespace).reverse.dropWhile Char.isWhitespace).reverse

/-- JS regex test of a literal (already lower-case) pattern against a text. -/
def strHas (text : List Char) (pat : String) : Bool :=
  containsSub text pat.toList

/-- A case-insensitive alternation regex such as `/survey|field|…/i` applied
to a subject: some lower-cased literal alternative occurs in the lower-cased
subject. -/
def roleTest (alts : List String) (subject : String) : Bool :=
  alts.any (fun a => strHas (lowerL subject.toList) a)

/-- Lexicographic three-way comparison on char lists (code-point order). -/
def cmpCharList : List Char → List Char → Int
  | [], [] => 0
  | [], _ :: _ => -1
  | _ :: _, [] => 1
  | a :: as, b :: bs =>
    if a.toNat < b.toNat then -1
    else if b.toNat < a.toNat then 1
    else cmpCharList as bs

/-- `localeCompare`, modelled lexicographically (see module docstring). -/
def strCmp (a b : String) : Int :=
  cmpCharList a.toList b.toList

/-- Association list with JS `Map` semantics. -/
abbrev AMap (α β : Type) := List (α × β)

/-- JS `Map.prototype.get`. -/
def amGet {α β : Type} [DecidableEq α] (m : AMap α β) (k : α) : Option β :=
  match m with
  | [] => none
  | p :: rest => if p.1 = k then some p.2 else amGet rest k

/-- JS `Map.prototype.set`: replace in place if the key is present, else
append (preserving insertion order for iteration). -/
def amSet {α β : Type} [DecidableEq α] (m : AMap α β) (k : α) (v : β) : AMap α β :=
  match m with
  | [] => [(k, v)]
  | p :: rest => if p.1 = k then (k, v) :: rest else p :: amSet rest k v

/-- `DEFAULT_FALLBACK_STATUS`. -/
def DEFAULT_FALLBACK_STATUS : String := "Estimating"

/-- `STATUS_KEYWORDS`: keyword patterns per status, in declaration order
(JS object key iteration order).  `/paused?/` is recorded as `"pause"`. -/
def STATUS_KEYWORDS : List (String × List String) := [
  ("Estimating", ["estimate", "proposal", "bid", "pricing", "rfp"]),
  ("Job Setup", ["setup", "conversion", "onboard", "kickoff"]),
  ("Ready to Schedule", ["ready to schedule", "project conversion", "mobilize"]),
  ("Scheduled", ["schedule", "scheduled", "booking", "calendar"]),
  ("On Hold", ["hold", "pause"]),
  ("Field Work in Progress",
    ["travel", "site", "field", "collect", "survey", "scan", "locat",
     "inspection", "safety"]),
  ("Ready to Draft", ["processing", "register", "ortho", "clean", "qc", "convert"]),
  ("Drafting", ["draft", "survbase", "cad", "markup", "dwg", "plan"]),
  ("Ready to Check", ["ready to check", "package ready", "awaiting check"]),
  ("Checking", ["check", "qa", "review"]),
  ("Final Submission Sent",
    ["submission", "deliver", "sent", "deliverable", "package issued"]),
  ("Ready to Invoice", ["ready to invoice", "billing", "billable"]),
  ("Invoiced", ["invoic"]),
  ("Complete",
    ["project complete", "job complete", "closeout", "final invoice", "finalized"])]

/-- One `ROLE_STATUS_MAP` entry: role pattern alternatives, candidate
statuses, weight in half-points (source weights 3 and 2.5 become 6 and 5;
see module docstring). -/
structure RoleHint where
  alts : List String
  statuses : List String
  weight : Nat
deriving DecidableEq, Repr

/-- `ROLE_STATUS_MAP` (weights in half-points: 6 ≙ 3, 5 ≙ 2.5). -/
def ROLE_STATUS_MAP : List RoleHint := [
  ⟨["estimating", "proposal", "bd", "business development"],
    ["Estimating", "Job Setup"], 6⟩,
  ⟨["administrator", "admin"], ["Job Setup", "Ready to Schedule"], 5⟩,
  ⟨["survey", "field", "technician", "technologist"],
    ["Field Work in Progress"], 6⟩,
  ⟨["data processing", "processing", "lidar"], ["Ready to Draft", "Drafting"], 6⟩,
  ⟨["cad", "draft", "designer", "survbase", "markup"],
    ["Drafting", "Ready to Check"], 6⟩,
  ⟨["manager", "project manager", "pm"], ["Checking", "Final Submission Sent"], 5⟩,
  ⟨["accounting", "billing", "finance", "ap", "ar", "invoice"],
    ["Ready to Invoice", "Invoiced"], 6⟩]

/-- One `ROLE_MAX_STATUS` entry: role pattern alternatives and the maximal
status such a role may advance to. -/
structure RoleCap where
  alts : List String
  maxStatus : String
deriving DecidableEq, Repr

/-- `ROLE_MAX_STATUS`. -/
def ROLE_MAX_STATUS : List RoleCap := [
  ⟨["survey", "field", "technician", "technologist"], "Field Work in Progress"⟩,
  ⟨["data processing", "processing", "lidar"], "Drafting"⟩,
  ⟨["cad", "draft", "designer", "survbase", "markup"], "Drafting"⟩,
  ⟨["manager", "project manager", "pm"], "Final Submission Sent"⟩]

/-- A CSV row as the scripts see it: a mapping from field name to string
value (`readInputFile` materialises every header with `?? ''`, so absent
fields are empty strings).  Named fields are the ones the inference core
reads (`job_number`, `job_status_at_dwr_create`, `date`, `dwrNumber`,
`timeCard.description`, `labour.name`, `additionalFields`); `others` holds
the values of any remaining columns, consulted only by `isEmptyRow`. -/
structure Row where
  job_number : String
  status : String
  date : String
  dwrNumber : String
  description : String
  role : String
  additionalFields : String
  others : List String
deriving DecidableEq, Repr

/-- `isEmptyRow`: every field value of the row is empty. -/
def isEmptyRow (row : Row) : Bool :=
  row.job_number == "" && row.status == "" && row.date == "" &&
  row.dwrNumber == "" && row.description == "" && row.role == "" &&
  row.additionalFields == "" && row.others.all (· == "")

/-- Space-join of char-list fragments (`Array.prototype.join(' ')`). -/
def joinSpace : List (List Char) → List Char
  | [] => []
  | [x] => x
  | x :: xs => x ++ ' ' :: joinSpace xs

/-- `combineRowText`: join the explicit status, role, description and
supplementary text fields (skipping blank ones), lower-cased. -/
def combineRowText (row : Row) : List Char :=
  let parts := [row.status.toList, row.role.toList, row.description.toList,
                row.additionalFields.toList]
  lowerL (joinSpace (parts.filter (fun p => 0 < (trimL p).length)))

/-- `buildStatusIndex` inner loop (`orderList.forEach((status, i) => …)`). -/
def buildStatusIndexAux (i : Nat) (m : AMap String Nat) : List String → AMap String Nat
  | [] => m
  | s :: rest => buildStatusIndexAux (i + 1) (amSet m s i) rest

/-- `buildStatusIndex`: status → rank map. -/
def buildStatusIndex (order : List String) : AMap String Nat :=
  buildStatusIndexAux 0 [] order

/-- Insertion-ordered dedup, i.e. `new Set(list)` as an ordered list. -/
def dedupKeep (l : List String) : List String :=
  l.foldl (fun acc x => if x ∈ acc then acc else acc ++ [x]) []

/-- `buildStatusSet`: the member set of the order; if the fallback status is
absent and the order is non-empty, the (already present) first element is
added — a no-op kept for fidelity. -/
def buildStatusSet (order : List String) : List String :=
  let s := dedupKeep order
  if DEFAULT_FALLBACK_STATUS ∈ s then s
  else
    match order with
    | [] => s
    | x :: _ => if x ∈ s then s else s ++ [x]

/-- `scoreStatuses`: per-status score map from keyword matches on the row
text plus role-affinity weights.  (In the two inner `Map.get` calls the key
is always present — score keys are exactly the order's statuses — so the
`getD 0` default is never taken.) -/
def scoreStatuses (row : Row) (statusOrder : List String)
    (statusIndex : AMap String Nat) : AMap String Nat :=
  let scores0 := statusOrder.foldl (fun m s => amSet m s 0) []
  let text := combineRowText row
  let scores1 := STATUS_KEYWORDS.foldl (fun m kw =>
    if (amGet statusIndex kw.1).isSome then
      let score := kw.2.foldl
        (fun acc p => if strHas text p then acc + 2 else acc) (0 : Nat)
      if 0 < score then amSet m kw.1 ((amGet m kw.1).getD 0 + score) else m
    else m) scores0
  ROLE_STATUS_MAP.foldl (fun m hint =>
    if roleTest hint.alts row.role then
      hint.statuses.foldl (fun m2 s =>
        if (amGet statusIndex s).isSome then
          amSet m2 s ((amGet m2 s).getD 0 + hint.weight)
        else m2) m
    else m) scores1

/-- One step of the `ROLE_MAX_STATUS.forEach` loop in `roleCapIndex`
(`none` models the initial `Infinity`; `Math.min(Infinity, idx) = idx`). -/
def capStep (row : Row) (statusIndex : AMap String Nat)
    (acc : Option Nat) (cap : RoleCap) : Option Nat :=
  if roleTest cap.alts row.role then
    match amGet statusIndex cap.maxStatus with
    | some idx =>
      some (match acc with
            | some c => min c idx
            | none => idx)
    | none => acc
  else acc

/-- The accumulated most restrictive matching role cap. -/
def minCapRank (row : Row) (statusIndex : AMap String Nat) : Option Nat :=
  ROLE_MAX_STATUS.foldl (capStep row statusIndex) none

/-- `roleCapIndex`: the most restrictive matching role cap, clamped below by
the floor; the floor itself when no cap applies. -/
def roleCapIndex (row : Row) (statusIndex : AMap String Nat) (floorIdx : Nat) : Nat :=
  match minCapRank row statusIndex with
  | none => floorIdx
  | some c => max floorIdx c

/-- The `best` record threaded through `pickStatusFromSignals`. -/
structure Best where
  idx : Nat
  status : String
  score : Nat
deriving DecidableEq, Repr

/-- One step of the `scores.forEach` loop in `pickStatusFromSignals`.
(A score key missing from `statusIndex` cannot occur in the program — score
keys come from the status order, all of whose elements are indexed — and is
modelled as a skip.) -/
def pickStep (statusIndex : AMap String Nat) (floorIdx capIdx : Nat)
    (best : Option Best) (p : String × Nat) : Option Best :=
  match amGet statusIndex p.1 with
  | none => best
  | some idx =>
    if idx < floorIdx ∨ capIdx < idx then best
    else if p.2 ≤ 0 then best
    else
      match best with
      | none => some ⟨idx, p.1, p.2⟩
      | some b =>
        if b.score < p.2 ∨ (p.2 = b.score ∧ b.idx < idx) then some ⟨idx, p.1, p.2⟩
        else best

/-- `pickStatusFromSignals`: best-scoring status with rank in
`[floorIdx, capIdx]`, ties broken toward the higher rank. -/
def pickStatusFromSignals (row : Row) (floorIdx capIdx : Nat)
    (statusOrder : List String) (statusIndex : AMap String Nat) : Option Nat :=
  let scores := scoreStatuses row statusOrder statusIndex
  (scores.foldl (pickStep statusIndex floorIdx capIdx) none).map (·.idx)

/-- One row of a job group together with its original input position. -/
structure Entry where
  row : Row
  index : Nat
deriving DecidableEq, Repr

/-- Append an entry to its job's group, creating the group at the end on
first sight (JS `Map` insertion order). -/
def addToGroup (gs : AMap String (List Entry)) (jid : String) (e : Entry) :
    AMap String (List Entry) :=
  match gs with
  | [] => [(jid, [e])]
  | g :: rest =>
    if g.1 = jid then (g.1, g.2 ++ [e]) :: rest else g :: addToGroup rest jid e

/-- The `rows.forEach((row, index) => …)` grouping loop. -/
def groupRowsAux (i : Nat) (gs : AMap String (List Entry)) :
    List Row → AMap String (List Entry)
  | [] => gs
  | r :: rest => groupRowsAux (i + 1) (addToGroup gs r.job_number ⟨r, i⟩) rest

/-- Partition the input rows into job groups keyed by `job_number`. -/
def groupRows (rows : List Row) : AMap String (List Entry) :=
  groupRowsAux 0 [] rows

/-- The date/dwr/position tiebreak tail of the sort comparator. -/
def cmpTie (a b : Entry) : Int :=
  if a.row.dwrNumber ≠ b.row.dwrNumber then strCmp a.row.dwrNumber b.row.dwrNumber
  else (a.index : Int) - (b.index : Int)

/-- The `entries.sort` comparator: parsed dates first (only when both parse
and differ), then `dwrNumber`, then original position. -/
def cmpEntries (pd : String → Option Int) (a b : Entry) : Int :=
  match pd a.row.date, pd b.row.date with
  | some ta, some tb => if ta ≠ tb then ta - tb else cmpTie a b
  | _, _ => cmpTie a b

/-- Ordered insertion for `sortEntries`. -/
def insertEntry (pd : String → Option Int) (e : Entry) : List Entry → List Entry
  | [] => [e]
  | x :: xs => if cmpEntries pd e x ≤ 0 then e :: x :: xs else x :: insertEntry pd e xs

/-- `entries.sort(comparator)`.  The comparator is antisymmetric
(`cmp b a = -cmp a b`) and, on entries with distinct positions, total and
strict, so the sorted permutation is unique and insertion sort models the
JS sort faithfully. -/
def sortEntries (pd : String → Option Int) : List Entry → List Entry
  | [] => []
  | x :: xs => insertEntry pd x (sortEntries pd xs)

/-- Step 3 of the tracker: clamp by a recognized explicit status
(`currentIdx = Math.min(Math.max(currentIdx, explicitIdx), capIdx)`;
an unrecognized status has no effect). -/
def explicitClamp (statusIndex : AMap String Nat) (row : Row)
    (currentIdx capIdx : Nat) : Nat :=
  match amGet statusIndex row.status with
  | some e => min (max currentIdx e) capIdx
  | none => currentIdx

/-- Step 4 of the tracker: clamp by the scored signal, if any. -/
def signalClamp (statusOrder : List String) (statusIndex : AMap String Nat)
    (row : Row) (currentIdx capIdx : Nat) : Nat :=
  match pickStatusFromSignals row currentIdx capIdx statusOrder statusIndex with
  | some s => min (max currentIdx s) capIdx
  | none => currentIdx

/-- The explicit-status and signal clamping steps for one non-empty row:
the new value of `currentIdx`. -/
def advanceIdx (statusOrder : List String) (statusIndex : AMap String Nat)
    (row : Row) (currentIdx : Nat) : Nat :=
  let capIdx := roleCapIndex row statusIndex currentIdx
  signalClamp statusOrder statusIndex row
    (explicitClamp statusIndex row currentIdx capIdx) capIdx

/-- `current = statusOrder[currentIdx] || current` (an out-of-range index
yields `undefined`, the empty string is falsy; both keep `current`). -/
def commitStatus (statusOrder : List String) (current : String) (idx : Nat) : String :=
  match statusOrder[idx]? with
  | some s => if s = "" then current else s
  | none => current

/-- The `entries.forEach` loop of the scoring variant for one group:
returns the per-entry `(index, assignment)` list (in processing order) and
the final `(current, currentIdx)` state. -/
def processGroup (statusOrder : List String) (statusIndex : AMap String Nat) :
    String → Nat → List Entry → List (Nat × String) × (String × Nat)
  | current, currentIdx, [] => ([], (current, currentIdx))
  | current, currentIdx, e :: rest =>
    if isEmptyRow e.row then
      let r := processGroup statusOrder statusIndex current currentIdx rest
      ((e.index, "") :: r.1, r.2)
    else
      let idx2 := advanceIdx statusOrder statusIndex e.row currentIdx
      let cur2 := commitStatus statusOrder current idx2
      let r := processGroup statusOrder statusIndex cur2 idx2 rest
      ((e.index, cur2) :: r.1, r.2)

/-- Each group's starting status: the fallback if it is in the status set,
else the set's first member (`statusSet.values().next().value`; the empty
string stands for `undefined` on an empty set, unreachable for the non-empty
orders all claims are about). -/
def initialStatus (statusSet : List String) : String :=
  if DEFAULT_FALLBACK_STATUS ∈ statusSet then DEFAULT_FALLBACK_STATUS
  else statusSet.headD ""

/-- Sort one group and run the scoring tracker over it
(`statusIndex.get(current) ?? 0` seeds the rank cursor). -/
def groupAssignments (pd : String → Option Int) (statusSet statusOrder : List String)
    (statusIndex : AMap String Nat) (entries : List Entry) : List (Nat × String) :=
  let current := initialStatus statusSet
  let currentIdx := (amGet statusIndex current).getD 0
  (processGroup statusOrder statusIndex current currentIdx
    (sortEntries pd entries)).1

/-- `inferStatuses` (first, scoring variant): the assignment map, as an
association list over original row positions (each set exactly once, so the
concatenation over groups is the JS `Map`'s content). -/
def inferStatuses (pd : String → Option Int) (rows : List Row)
    (statusSet statusOrder : List String) (statusIndex : AMap String Nat) :
    AMap Nat String :=
  (groupRows rows).foldl
    (fun asg g => asg ++ groupAssignments pd statusSet statusOrder statusIndex g.2) []

namespace V2

/-- The `entries.forEach` loop of the second (explicit-status-only) variant:
an explicit status that is a member of the status set is adopted verbatim;
every row (empty or not) is assigned the current status. -/
def processGroup (statusSet : List String) :
    String → List Entry → List (Nat × String)
  | _, [] => []
  | current, e :: rest =>
    let cur2 := if e.row.status ∈ statusSet then e.row.status else current
    (e.index, cur2) :: processGroup statusSet cur2 rest

/-- `inferStatuses` (second, explicit-status-only variant). -/
def inferStatuses (pd : String → Option Int) (rows : List Row)
    (statusSet : List String) : AMap Nat String :=
  (groupRows rows).foldl
    (fun asg g =>
      asg ++ processGroup statusSet (initialStatus statusSet) (sortEntries pd g.2)) []

end V2

/-- `safeDate` on the scenario inputs below: every date field is the empty
string and `Date.parse('')` is `NaN`. -/
def pdEmpty : String → Option Int := fun _ => none

/-- Modelled from the spec: the canonical status order is loaded from
`data/job_status_order.csv`, which is not part of the sources here; per the
spec's glossary ("Estimating → Job Setup → … → Complete") and the source
comment that the keyword table's order "must match the canonical order", it
is the keyword table's key list. -/
def canonicalOrder : List String := STATUS_KEYWORDS.map (·.1)

/-! ## Concrete scenario inputs -/

/-- Helper for building concrete rows with no extra columns. -/
def mkRow (job status date dwr desc role add : String) : Row :=
  { job_number := job, status := status, date := date, dwrNumber := dwr,
    description := desc, role := role, additionalFields := add, others := [] }

/-- A non-empty row whose role field is empty, so that no role-cap pattern
matches. -/
def c1Row : Row := mkRow "J1" "" "" "" "survey" "" ""

/-- The §8 "keyword-only advance" scenario row: unrecognized explicit
status, empty role, description `"site survey and field scan today"`. -/
def c3Row : Row := mkRow "J1" "Unknown" "" "" "site survey and field scan today" "" ""

/-- First row of the §8 "explicit status regression blocked" scenario. -/
def c4RowA : Row := mkRow "J" "Complete" "" "" "" "" ""

/-- Second row of the §8 "explicit status regression blocked" scenario. -/
def c4RowB : Row := mkRow "J" "Estimating" "" "" "" "" ""

/-- A three-status order used by the permutation counterexample. -/
def permOrder : List String := ["Estimating", "Field Work in Progress", "Drafting"]

/-- Field-role row of the permutation counterexample (job `"J"`, no date,
no dwr number). -/
def permRowField : Row := mkRow "J" "" "" "" "" "field" ""

/-- Cad-role row of the permutation counterexample. -/
def permRowCad : Row := mkRow "J" "" "" "" "" "cad" ""

/-! ## Map and index lemmas -/

theorem amGet_amSet {α β : Type} [DecidableEq α] (m : AMap α β) (k : α) (v : β)
    (k' : α) : amGet (amSet m k v) k' = if k = k' then some v else amGet m k' := by
  induction m with
  | nil => by_cases h : k = k' <;> simp [amSet, amGet, h]
  | cons p rest ih =>
    by_cases hpk : p.1 = k
    · by_cases h : k = k' <;> simp [amSet, amGet, hpk, h]
    · by_cases h : p.1 = k'
      · have h1 : ¬ k = k' := fun he => hpk (h.trans he.symm)
        have h2 : ¬ k' = k := fun he => h1 he.symm
        simp [amSet, amGet, hpk, h, h1, h2]
      · simp [amSet, amGet, hpk, h, ih]

theorem bsiAux_isSome (l : List String) :
    ∀ (i : Nat) (m : AMap String Nat) (s : String),
      (amGet m s).isSome → (amGet (buildStatusIndexAux i m l) s).isSome := by
  induction l with
  | nil => intro i m s h; simpa [buildStatusIndexAux] using h
  | cons x rest ih =>
    intro i m s h
    simp only [buildStatusIndexAux]
    apply ih
    rw [amGet_amSet]
    by_cases hx : x = s <;> simp [hx, h]

theorem bsiAux_mem_isSome (l : List String) :
    ∀ (i : Nat) (m : AMap String Nat) (s : String), s ∈ l →
      (amGet (buildStatusIndexAux i m l) s).isSome := by
  induction l with
  | nil => intro i m s h; simp at h
  | cons x rest ih =>
    intro i m s h
    rcases List.mem_cons.mp h with h | h
    · subst h
      simp only [buildStatusIndexAux]
      apply bsiAux_isSome
      rw [amGet_amSet]
      simp
    · exact ih _ _ _ h

theorem bsiAux_get_spec (l : List String) :
    ∀ (i : Nat) (m : AMap String Nat) (s : String) (v : Nat),
      amGet (buildStatusIndexAux i m l) s = some v →
      amGet m s = some v ∨ ∃ j, l[j]? = some s ∧ v = i + j := by
  induction l with
  | nil => intro i m s v h; exact Or.inl (by simpa [buildStatusIndexAux] using h)
  | cons x rest ih =>
    intro i m s v h
    simp only [buildStatusIndexAux] at h
    rcases ih _ _ _ _ h with h' | ⟨j, hj, hv⟩
    · rw [amGet_amSet] at h'
      by_cases hx : x = s
      · simp [hx] at h'
        exact Or.inr ⟨0, by simp [hx.symm], by omega⟩
      · simp [hx] at h'
        exact Or.inl h'
    · exact Or.inr ⟨j + 1, by simpa using hj, by omega⟩

/-- A value stored in the status index points at an occurrence of its key. -/
theorem buildStatusIndex_get (order : List String) (s : String) (v : Nat)
    (h : amGet (buildStatusIndex order) s = some v) : order[v]? = some s := by
  rcases bsiAux_get_spec order 0 [] s v h with h' | ⟨j, hj, hv⟩
  · simp [amGet] at h'
  · simpa [hv] using hj

theorem buildStatusIndex_lt_length (order : List String) (s : String) (v : Nat)
    (h : amGet (buildStatusIndex order) s = some v) : v < order.length := by
  have := buildStatusIndex_get order s v h
  exact (List.getElem?_eq_some.mp this).1

theorem buildStatusIndex_mem (order : List String) (s : String) (v : Nat)
    (h : amGet (buildStatusIndex order) s = some v) : s ∈ order :=
  List.getElem?_mem (buildStatusIndex_get order s v h)

/-- On a duplicate-free order the status index is exact rank lookup. -/
theorem buildStatusIndex_rank (order : List String) (hnd : order.Nodup)
    (c : Nat) (hc : c < order.length) :
    amGet (buildStatusIndex order) order[c] = some c := by
  have hs : (amGet (buildStatusIndex order) order[c]).isSome :=
    bsiAux_mem_isSome order 0 [] _ (order.getElem_mem hc)
  rcases Option.isSome_iff_exists.mp hs with ⟨v, hv⟩
  have hocc := buildStatusIndex_get order _ v hv
  rcases List.getElem?_eq_some.mp hocc with ⟨hvlen, hveq⟩
  have : v = c := (@List.Nodup.getElem_inj_iff _ _ hnd v hvlen c hc).mp hveq
  rw [hv, this]

/-! ## Cap and advance lemmas -/

theorem foldl_capStep_no_match (row : Row) (si : AMap String Nat)
    (l : List RoleCap) (hm : ∀ cap ∈ l, roleTest cap.alts row.role = false) :
    ∀ acc : Option Nat, l.foldl (capStep row si) acc = acc := by
  induction l with
  | nil => intro acc; rfl
  | cons x rest ih =>
    intro acc
    have hx : roleTest x.alts row.role = false := hm x (by simp)
    have hrest : ∀ cap ∈ rest, roleTest cap.alts row.role = false :=
      fun cap hc => hm cap (by simp [hc])
    simp only [List.foldl_cons, capStep, hx]
    simpa using ih hrest acc

theorem minCapRank_none (row : Row) (si : AMap String Nat)
    (hm : ∀ cap ∈ ROLE_MAX_STATUS, roleTest cap.alts row.role = false) :
    minCapRank row si = none :=
  foldl_capStep_no_match row si ROLE_MAX_STATUS hm none

theorem foldl_capStep_value (row : Row) (si : AMap String Nat) :
    ∀ (l : List RoleCap) (acc : Option Nat),
      (∀ v, acc = some v → ∃ s, amGet si s = some v) →
      ∀ v, l.foldl (capStep row si) acc = some v → ∃ s, amGet si s = some v := by
  intro l
  induction l with
  | nil => intro acc hacc v hv; exact hacc v hv
  | cons x rest ih =>
    intro acc hacc v hv
    refine ih (capStep row si acc x) ?_ v (by simpa using hv)
    intro w hw
    by_cases hx : roleTest x.alts row.role
    · simp only [capStep, hx, if_true] at hw
      cases hms : amGet si x.maxStatus with
      | none => rw [hms] at hw; exact hacc w hw
      | some idx =>
        rw [hms] at hw
        cases acc with
        | none =>
          simp at hw
          exact ⟨x.maxStatus, by rw [hms, hw]⟩
        | some c =>
          simp at hw
          rcases Nat.le_total c idx with hle | hle
          · rcases hacc c rfl with ⟨s, hs⟩
            exact ⟨s, by rw [hs]; congr 1; omega⟩
          · exact ⟨x.maxStatus, by rw [hms]; congr 1; omega⟩
    · simp only [capStep, hx, if_false] at hw
      exact hacc w hw

theorem minCapRank_lt_length (order : List String) (row : Row) (k : Nat)
    (h : minCapRank row (buildStatusIndex order) = some k) : k < order.length := by
  rcases foldl_capStep_value row (buildStatusIndex order) ROLE_MAX_STATUS none
      (by intro v hv; cases hv) k h with ⟨s, hs⟩
  exact buildStatusIndex_lt_length order s k hs

theorem roleCapIndex_ge_floor (row : Row) (si : AMap String Nat) (c : Nat) :
    c ≤ roleCapIndex row si c := by
  unfold roleCapIndex
  cases minCapRank row si with
  | none => simp
  | some k => simp [Nat.le_max_left]

theorem roleCapIndex_lt_length (order : List String) (row : Row) (c : Nat)
    (hc : c < order.length) :
    roleCapIndex row (buildStatusIndex order) c < order.length := by
  unfold roleCapIndex
  cases hm : minCapRank row (buildStatusIndex order) with
  | none => simpa
  | some k =>
    have := minCapRank_lt_length order row k hm
    simp only []
    omega

theorem explicitClamp_ge (si : AMap String Nat) (row : Row) (c cap : Nat)
    (hcap : c ≤ cap) : c ≤ explicitClamp si row c cap := by
  unfold explicitClamp
  cases amGet si row.status with
  | none => exact Nat.le_refl c
  | some e => simp only []; omega

theorem explicitClamp_le (si : AMap String Nat) (row : Row) (c cap : Nat)
    (hcap : c ≤ cap) : explicitClamp si row c cap ≤ cap := by
  unfold explicitClamp
  cases amGet si row.status with
  | none => exact hcap
  | some e => simp only []; omega

theorem signalClamp_ge (order : List String) (si : AMap String Nat)
    (row : Row) (c cap : Nat) (hcap : c ≤ cap) :
    c ≤ signalClamp order si row c cap := by
  unfold signalClamp
  cases pickStatusFromSignals row c cap order si with
  | none => exact Nat.le_refl c
  | some s => simp only []; omega

theorem signalClamp_le (order : List String) (si : AMap String Nat)
    (row : Row) (c cap : Nat) (hcap : c ≤ cap) :
    signalClamp order si row c cap ≤ cap := by
  unfold signalClamp
  cases pickStatusFromSignals row c cap order si with
  | none => exact hcap
  | some s => simp only []; omega

theorem advanceIdx_ge (order : List String) (si : AMap String Nat)
    (row : Row) (c : Nat) : c ≤ advanceIdx order si row c := by
  have hcap : c ≤ roleCapIndex row si c := roleCapIndex_ge_floor row si c
  exact Nat.le_trans (explicitClamp_ge si row c _ hcap)
    (signalClamp_ge order si row _ _ (explicitClamp_le si row c _ hcap))

theorem advanceIdx_le_cap (order : List String) (si : AMap String Nat)
    (row : Row) (c : Nat) :
    advanceIdx order si row c ≤ roleCapIndex row si c := by
  have hcap : c ≤ roleCapIndex row si c := roleCapIndex_ge_floor row si c
  exact signalClamp_le order si row _ _ (explicitClamp_le si row c _ hcap)

theorem advanceIdx_lt_length (order : List String) (row : Row) (c : Nat)
    (hc : c < order.length) :
    advanceIdx order (buildStatusIndex order) row c < order.length :=
  Nat.lt_of_le_of_lt (advanceIdx_le_cap order (buildStatusIndex order) row c)
    (roleCapIndex_lt_length order row c hc)

theorem commitStatus_eq (order : List String) (cur : String) (c : Nat)
    (hc : c < order.length) (hne : ∀ s ∈ order, s ≠ "") :
    commitStatus order cur c = order[c] := by
  unfold commitStatus
  rw [List.getElem?_eq_getElem hc]
  have : order[c] ≠ "" := hne _ (order.getElem_mem hc)
  simp [this]

theorem commitStatus_rank (order : List String) (hnd : order.Nodup)
    (hne : ∀ s ∈ order, s ≠ "") (cur : String) (c : Nat) (hc : c < order.length) :
    amGet (buildStatusIndex order) (commitStatus order cur c) = some c := by
  rw [commitStatus_eq order cur c hc hne]
  exact buildStatusIndex_rank order hnd c hc

/-! ## Claim theorems: role-cap behaviour and the §8 scenarios -/

/-- C1: the claim says `roleCapIndex` "returns an unbounded cap (no upper
restriction on rank) when no role-cap entry matches the row's role field".
The code instead returns the floor itself: for the non-empty row `c1Row`
(empty role field, so no `ROLE_MAX_STATUS` pattern matches) and floor rank
`0` over the two-status order below, the returned cap is `0` — it forbids
the higher rank `1`, i.e. it is a genuine upper restriction, not an
unbounded cap.  (The minimum-over-matching-caps and `cap ≥ floor` parts of
the claim do hold; see `roleCapIndex_ge_floor` and the cap-respect
lemmas.) -/
theorem roleCapIndex_no_match_eval :
    roleCapIndex c1Row (buildStatusIndex ["Estimating", "Complete"]) 0 = 0 ∧
    ["Estimating", "Complete"].length = 2 :=
  ⟨by rfl, by rfl⟩

/-- C2: in the scoring variant, a non-empty row whose role matches no
`ROLE_MAX_STATUS` pattern gets `capRank = floor` from `roleCapIndex`, and
consequently processing the row leaves the group's current rank exactly
unchanged: neither a recognized explicit status nor any signal can move it. -/
theorem advanceIdx_no_cap_frozen (order : List String) (row : Row) (c : Nat)
    (h1 : order ≠ []) (h2 : isEmptyRow row = false)
    (h3 : ∀ cap ∈ ROLE_MAX_STATUS, roleTest cap.alts row.role = false) :
    roleCapIndex row (buildStatusIndex order) c = c ∧
    advanceIdx order (buildStatusIndex order) row c = c := by
  have hcap : roleCapIndex row (buildStatusIndex order) c = c := by
    unfold roleCapIndex
    rw [minCapRank_none row (buildStatusIndex order) h3]
  refine ⟨hcap, ?_⟩
  have he : explicitClamp (buildStatusIndex order) row c c = c := by
    unfold explicitClamp
    cases amGet (buildStatusIndex order) row.status with
    | none => rfl
    | some e => simp only []; omega
  simp only [advanceIdx, hcap, he]
  unfold signalClamp
  cases pickStatusFromSignals row c c order (buildStatusIndex order) with
  | none => rfl
  | some s => simp only []; omega

/-- Witness for `advanceIdx_no_cap_frozen` at a concrete input. -/
theorem advanceIdx_no_cap_frozen_witness :
    roleCapIndex c1Row (buildStatusIndex canonicalOrder) 3 = 3 ∧
    advanceIdx canonicalOrder (buildStatusIndex canonicalOrder) c1Row 3 = 3 :=
  advanceIdx_no_cap_frozen canonicalOrder c1Row 3 (by decide) (by decide)
    (by decide)

/-- C3: the §8 "keyword-only advance" scenario fails on the code.  The
single-row group `c3Row` (unrecognized explicit status, empty role,
description `"site survey and field scan today"`) is claimed to advance
from the fallback `"Estimating"` to `"Field Work in Progress"`; because
`roleCapIndex` returns the floor when no role-cap entry matches, the cap
equals the floor `0`, every Field-Work keyword match is out of range, and
the code assigns `"Estimating"`. -/
theorem keyword_advance_scenario_eval :
    amGet (inferStatuses pdEmpty [c3Row] (buildStatusSet canonicalOrder)
      canonicalOrder (buildStatusIndex canonicalOrder)) 0 = some "Estimating" := by
  rfl

/-- C4: the §8 "explicit status regression blocked" scenario fails on the
code.  The group `[{status:"Complete"}, {status:"Estimating"}]` is claimed
to yield `["Complete","Complete"]`; because `roleCapIndex` returns the
floor for these role-less rows, the explicit `"Complete"` is clamped back
to the floor `0` and the code yields `["Estimating","Estimating"]`. -/
theorem explicit_regression_scenario_eval :
    amGet (inferStatuses pdEmpty [c4RowA, c4RowB] (buildStatusSet canonicalOrder)
      canonicalOrder (buildStatusIndex canonicalOrder)) 0 = some "Estimating" ∧
    amGet (inferStatuses pdEmpty [c4RowA, c4RowB] (buildStatusSet canonicalOrder)
      canonicalOrder (buildStatusIndex canonicalOrder)) 1 = some "Estimating" :=
  ⟨by rfl, by rfl⟩

/-- C7: an all-empty row is assigned the empty string, and the rest of the
group is processed exactly as if the empty row were absent (same remaining
assignments and same final state, hence the next row's floor rank is
unchanged). -/
theorem processGroup_empty_passthrough (order : List String)
    (si : AMap String Nat) (cur : String) (c : Nat) (e : Entry)
    (rest : List Entry) (he : isEmptyRow e.row = true) :
    (processGroup order si cur c (e :: rest)).1 =
      (e.index, "") :: (processGroup order si cur c rest).1 ∧
    (processGroup order si cur c (e :: rest)).2 =
      (processGroup order si cur c rest).2 := by
  constructor <;> simp [processGroup, he]

/-- An all-empty row used by witnesses. -/
def emptyRow : Row := mkRow "" "" "" "" "" "" ""

/-- Witness for `processGroup_empty_passthrough` at a concrete input. -/
theorem processGroup_empty_passthrough_witness :
    (processGroup canonicalOrder (buildStatusIndex canonicalOrder)
        "Estimating" 0 [⟨emptyRow, 5⟩, ⟨c3Row, 6⟩]).1 =
      (5, "") :: (processGroup canonicalOrder (buildStatusIndex canonicalOrder)
        "Estimating" 0 [⟨c3Row, 6⟩]).1 ∧
    (processGroup canonicalOrder (buildStatusIndex canonicalOrder)
        "Estimating" 0 [⟨emptyRow, 5⟩, ⟨c3Row, 6⟩]).2 =
      (processGroup canonicalOrder (buildStatusIndex canonicalOrder)
        "Estimating" 0 [⟨c3Row, 6⟩]).2 :=
  processGroup_empty_passthrough canonicalOrder (buildStatusIndex canonicalOrder)
    "Estimating" 0 ⟨emptyRow, 5⟩ [⟨c3Row, 6⟩] (by decide)

/-- C9 counterexample: shuffling the input rows changes a row's final
assignment.  `permRowField` (role `"field"`) and `permRowCad` (role
`"cad"`) share job `"J"`, have unparseable (empty) dates and equal (empty)
`dwrNumber`s, so the intra-group sort falls back to original input
position.  In `[permRowField, permRowCad]` the field row is processed
first and is assigned `"Field Work in Progress"`; in the permuted input
`[permRowCad, permRowField]` the cad row first advances the group's rank
to `"Drafting"`, after which the same field row (now at position 1) is
assigned `"Drafting"`.  The two lists are permutations of one another and
the two content-identical copies of `permRowField` receive different
statuses, refuting the claim. -/
theorem inferStatuses_perm_counterexample :
    ([permRowCad, permRowField].Perm [permRowField, permRowCad]) ∧
    permRowField ≠ permRowCad ∧
    amGet (inferStatuses pdEmpty [permRowField, permRowCad]
      (buildStatusSet permOrder) permOrder (buildStatusIndex permOrder)) 0 =
      some "Field Work in Progress" ∧
    amGet (inferStatuses pdEmpty [permRowCad, permRowField]
      (buildStatusSet permOrder) permOrder (buildStatusIndex permOrder)) 1 =
      some "Drafting" :=
  ⟨List.Perm.swap permRowField permRowCad [], by decide, by rfl, by rfl⟩

/-! ## Monotone progression -/

theorem processGroup_length (order : List String) (si : AMap String Nat) :
    ∀ (es : List Entry) (cur : String) (c : Nat),
      (processGroup order si cur c es).1.length = es.length := by
  intro es
  induction es with
  | nil => intro cur c; rfl
  | cons e rest ih =>
    intro cur c
    by_cases he : isEmptyRow e.row <;> simp [processGroup, he, ih]

/-- Every rank appearing among the committed statuses of a group suffix is
at least the entry state: the rank cursor never decreases. -/
theorem processGroup_rank_lb (order : List String) (hnd : order.Nodup)
    (hne : ∀ s ∈ order, s ≠ "") :
    ∀ (es : List Entry) (cur : String) (c : Nat), c < order.length →
      ∀ p ∈ (processGroup order (buildStatusIndex order) cur c es).1,
        ∀ r, amGet (buildStatusIndex order) p.2 = some r → c ≤ r := by
  intro es
  induction es with
  | nil => intro cur c _ p hp; simp [processGroup] at hp
  | cons e rest ih =>
    intro cur c hc p hp r hr
    by_cases he : isEmptyRow e.row
    · simp only [processGroup, he, if_true] at hp
      rcases List.mem_cons.mp hp with hp | hp
      · subst hp
        simp only at hr
        exact absurd (hne _ (buildStatusIndex_mem order _ _ hr)) (by simp)
      · exact ih cur c hc p hp r hr
    · simp only [processGroup, he, if_false] at hp
      have hlt := advanceIdx_lt_length order e.row c hc
      have hge := advanceIdx_ge order (buildStatusIndex order) e.row c
      rcases List.mem_cons.mp hp with hp | hp
      · subst hp
        simp only at hr
        rw [commitStatus_rank order hnd hne cur _ hlt] at hr
        have hr' := Option.some_inj.mp hr
        omega
      · exact Nat.le_trans hge (ih _ _ hlt p hp r hr)

theorem processGroup_pairwise (order : List String) (hnd : order.Nodup)
    (hne : ∀ s ∈ order, s ≠ "") :
    ∀ (es : List Entry) (cur : String) (c : Nat), c < order.length →
      (processGroup order (buildStatusIndex order) cur c es).1.Pairwise
        (fun p q => ∀ ri rj, amGet (buildStatusIndex order) p.2 = some ri →
          amGet (buildStatusIndex order) q.2 = some rj → ri ≤ rj) := by
  intro es
  induction es with
  | nil => intro cur c _; simp [processGroup]
  | cons e rest ih =>
    intro cur c hc
    by_cases he : isEmptyRow e.row
    · simp only [processGroup, he, if_true]
      refine List.Pairwise.cons ?_ (ih cur c hc)
      intro q _ ri rj hri _
      exact absurd (hne _ (buildStatusIndex_mem order _ _ hri)) (by simp)
    · simp only [processGroup, he, if_false]
      have hlt := advanceIdx_lt_length order e.row c hc
      refine List.Pairwise.cons ?_ (ih _ _ hlt)
      intro q hq ri rj hri hrj
      rw [commitStatus_rank order hnd hne cur _ hlt] at hri
      have hri' : ri = advanceIdx order (buildStatusIndex order) e.row c :=
        (Option.some_inj.mp hri).symm
      subst hri'
      exact processGroup_rank_lb order hnd hne rest _ _ hlt q hq rj hrj

/-- C5: monotone progression.  For every job group of any input, the list
of committed assignments (in canonical processing order) is pairwise
monotone in rank: whenever an earlier committed status and a later one both
have a rank in the status order — which is the case exactly for the
non-empty rows, since empty rows commit the rankless empty string — the
earlier rank is at most the later rank. -/
theorem inferStatuses_group_rank_monotone (pd : String → Option Int)
    (rows : List Row) (sset order : List String)
    (h1 : order ≠ []) (hnd : order.Nodup) (hne : ∀ s ∈ order, s ≠ "") :
    ∀ g ∈ groupRows rows,
      (groupAssignments pd sset order (buildStatusIndex order) g.2).Pairwise
        (fun p q => ∀ ri rj, amGet (buildStatusIndex order) p.2 = some ri →
          amGet (buildStatusIndex order) q.2 = some rj → ri ≤ rj) := by
  intro g _
  unfold groupAssignments
  apply processGroup_pairwise order hnd hne
  cases hv : amGet (buildStatusIndex order) (initialStatus sset) with
  | none =>
    simp only [hv, Option.getD_none]
    exact List.length_pos.mpr h1
  | some v =>
    simp only [hv, Option.getD_some]
    exact buildStatusIndex_lt_length order _ v hv

/-- Witness for `inferStatuses_group_rank_monotone` at a concrete input. -/
theorem inferStatuses_group_rank_monotone_witness :
    (groupAssignments pdEmpty (buildStatusSet permOrder) permOrder
        (buildStatusIndex permOrder)
        [⟨permRowField, 0⟩, ⟨permRowCad, 1⟩]).Pairwise
      (fun p q => ∀ ri rj, amGet (buildStatusIndex permOrder) p.2 = some ri →
        amGet (buildStatusIndex permOrder) q.2 = some rj → ri ≤ rj) :=
  inferStatuses_group_rank_monotone pdEmpty [permRowField, permRowCad]
    (buildStatusSet permOrder) permOrder (by decide) (by decide)
    (by decide) ("J", [⟨permRowField, 0⟩, ⟨permRowCad, 1⟩]) (by decide)

/-! ## Cap respect -/

/-- C6: cap respect.  For a non-empty row whose role matches at least one
role-cap entry with an indexed cap status (most restrictive matching cap
rank `k`), if the group's carried-forward rank `c` has not already exceeded
`k`, then the status committed for the row has a rank, and that rank is at
most `k`. -/
theorem commit_rank_le_role_cap (order : List String) (row : Row)
    (cur : String) (c k : Nat) (hnd : order.Nodup)
    (hne : ∀ s ∈ order, s ≠ "") (hc : c < order.length)
    (hrow : isEmptyRow row = false)
    (hk : minCapRank row (buildStatusIndex order) = some k) (hck : c ≤ k) :
    ∃ r, amGet (buildStatusIndex order)
        (commitStatus order cur (advanceIdx order (buildStatusIndex order) row c)) =
          some r ∧ r ≤ k := by
  have hklen : k < order.length := minCapRank_lt_length order row k hk
  have hcap : roleCapIndex row (buildStatusIndex order) c = k := by
    unfold roleCapIndex
    rw [hk]
    simp only []
    omega
  have hadv : advanceIdx order (buildStatusIndex order) row c ≤ k :=
    hcap ▸ advanceIdx_le_cap order (buildStatusIndex order) row c
  have hlt : advanceIdx order (buildStatusIndex order) row c < order.length :=
    Nat.lt_of_le_of_lt hadv hklen
  exact ⟨advanceIdx order (buildStatusIndex order) row c,
    commitStatus_rank order hnd hne cur _ hlt, hadv⟩

/-- Witness for `commit_rank_le_role_cap` at a concrete input. -/
theorem commit_rank_le_role_cap_witness :
    ∃ r, amGet (buildStatusIndex permOrder)
        (commitStatus permOrder "Estimating"
          (advanceIdx permOrder (buildStatusIndex permOrder) permRowField 0)) =
          some r ∧ r ≤ 1 :=
  commit_rank_le_role_cap permOrder permRowField "Estimating" 0 1
    (by decide) (by decide) (by decide) (by decide) (by rfl) (by decide)

/-! ## Signal selection -/

/-- A score-map entry `p` is a selectable candidate at rank `i`: its status
is indexed at `i`, `i` lies in `[f, cap]`, and its score is positive. -/
def CandAt (si : AMap String Nat) (f cap : Nat) (p : String × Nat) (i : Nat) : Prop :=
  amGet si p.1 = some i ∧ f ≤ i ∧ i ≤ cap ∧ 0 < p.2

/-- `b` beats the candidate `q` at rank `j`: higher score, or equal score
and at least as high a rank. -/
def Beats (b : Best) (q : String × Nat) (j : Nat) : Prop :=
  q.2 < b.score ∨ (q.2 = b.score ∧ j ≤ b.idx)

theorem pickStep_not_cand (si : AMap String Nat) (f cap : Nat)
    (p : String × Nat) (h : ∀ i, ¬ CandAt si f cap p i) (acc : Option Best) :
    pickStep si f cap acc p = acc := by
  cases hidx : amGet si p.1 with
  | none => unfold pickStep; rw [hidx]
  | some idx =>
    unfold pickStep
    rw [hidx]
    simp only []
    by_cases hrange : idx < f ∨ cap < idx
    · rw [if_pos hrange]
    · rw [if_neg hrange]
      by_cases hsc : p.2 ≤ 0
      · rw [if_pos hsc]
      · exact absurd ⟨hidx, by omega, by omega, by omega⟩ (h idx)

theorem pickStep_cand_none (si : AMap String Nat) (f cap : Nat)
    (p : String × Nat) (i : Nat) (h : CandAt si f cap p i) :
    pickStep si f cap none p = some ⟨i, p.1, p.2⟩ := by
  rcases h with ⟨hidx, h1, h2, h3⟩
  unfold pickStep
  rw [hidx]
  simp only []
  rw [if_neg (by omega), if_neg (by omega)]

theorem pickStep_cand_some (si : AMap String Nat) (f cap : Nat)
    (p : String × Nat) (i : Nat) (h : CandAt si f cap p i) (b0 : Best) :
    pickStep si f cap (some b0) p =
      if b0.score < p.2 ∨ (p.2 = b0.score ∧ b0.idx < i) then some ⟨i, p.1, p.2⟩
      else some b0 := by
  rcases h with ⟨hidx, h1, h2, h3⟩
  unfold pickStep
  rw [hidx]
  simp only []
  rw [if_neg (by omega), if_neg (by omega)]

theorem pickStep_none_inv (si : AMap String Nat) (f cap : Nat)
    (p : String × Nat) (b1 : Best) (h : pickStep si f cap none p = some b1) :
    ∃ i, CandAt si f cap p i ∧ b1 = ⟨i, p.1, p.2⟩ := by
  by_cases hc : ∃ i, CandAt si f cap p i
  · rcases hc with ⟨i, hc⟩
    rw [pickStep_cand_none si f cap p i hc] at h
    exact ⟨i, hc, (Option.some_inj.mp h).symm⟩
  · rw [pickStep_not_cand si f cap p (fun i hi => hc ⟨i, hi⟩) none] at h
    exact absurd h (by simp)

/-- Folding `pickStep` from an already-found best `b0` yields a best that
(1) beats-or-equals `b0`, (2) is `b0` or originates from a candidate of the
list, and (3) beats every candidate of the list. -/
theorem foldl_pickStep_some (si : AMap String Nat) (f cap : Nat) :
    ∀ (l : List (String × Nat)) (b0 : Best),
      ∃ b, l.foldl (pickStep si f cap) (some b0) = some b ∧
        (b0.score < b.score ∨ (b0.score = b.score ∧ b0.idx ≤ b.idx)) ∧
        (b = b0 ∨ ∃ p ∈ l, ∃ i, CandAt si f cap p i ∧ b = ⟨i, p.1, p.2⟩) ∧
        ∀ q ∈ l, ∀ j, CandAt si f cap q j → Beats b q j := by
  intro l
  induction l with
  | nil =>
    intro b0
    exact ⟨b0, rfl, Or.inr ⟨rfl, Nat.le_refl _⟩, Or.inl rfl, by simp⟩
  | cons p t ih =>
    intro b0
    by_cases hc : ∃ i, CandAt si f cap p i
    · rcases hc with ⟨i, hc⟩
      have hidx := hc.1
      by_cases hrepl : b0.score < p.2 ∨ (p.2 = b0.score ∧ b0.idx < i)
      · rcases ih ⟨i, p.1, p.2⟩ with ⟨b, hfold, hdom1, horig, hdomall⟩
        refine ⟨b, ?_, ?_, ?_, ?_⟩
        · rw [List.foldl_cons, pickStep_cand_some si f cap p i hc b0, if_pos hrepl]
          exact hfold
        · simp only [Best.mk.injEq] at hdom1 ⊢
          omega
        · rcases horig with hb | ⟨q, hq, j2, hc2, hbeq⟩
          · exact Or.inr ⟨p, List.mem_cons_self p t, i, hc, hb⟩
          · exact Or.inr ⟨q, List.mem_cons_of_mem _ hq, j2, hc2, hbeq⟩
        · intro q hq j hcq
          rcases List.mem_cons.mp hq with rfl | hq'
          · have hj : j = i := by
              have := hcq.1
              rw [hidx] at this
              exact (Option.some_inj.mp this).symm
            subst hj
            unfold Beats
            simp only at hdom1
            omega
          · exact hdomall q hq' j hcq
      · rcases ih b0 with ⟨b, hfold, hdom0, horig, hdomall⟩
        refine ⟨b, ?_, hdom0, ?_, ?_⟩
        · rw [List.foldl_cons, pickStep_cand_some si f cap p i hc b0, if_neg hrepl]
          exact hfold
        · rcases horig with hb | ⟨q, hq, j2, hc2, hbeq⟩
          · exact Or.inl hb
          · exact Or.inr ⟨q, List.mem_cons_of_mem _ hq, j2, hc2, hbeq⟩
        · intro q hq j hcq
          rcases List.mem_cons.mp hq with rfl | hq'
          · have hj : j = i := by
              have := hcq.1
              rw [hidx] at this
              exact (Option.some_inj.mp this).symm
            subst hj
            unfold Beats
            omega
          · exact hdomall q hq' j hcq
    · have hnc : ∀ i, ¬ CandAt si f cap p i := fun i hi => hc ⟨i, hi⟩
      rcases ih b0 with ⟨b, hfold, hdom0, horig, hdomall⟩
      refine ⟨b, ?_, hdom0, ?_, ?_⟩
      · rw [List.foldl_cons, pickStep_not_cand si f cap p hnc (some b0)]
        exact hfold
      · rcases horig with hb | ⟨q, hq, j2, hc2, hbeq⟩
        · exact Or.inl hb
        · exact Or.inr ⟨q, List.mem_cons_of_mem _ hq, j2, hc2, hbeq⟩
      · intro q hq j hcq
        rcases List.mem_cons.mp hq with rfl | hq'
        · exact absurd hcq (hnc j)
        · exact hdomall q hq' j hcq

theorem foldl_pickStep_none (si : AMap String Nat) (f cap : Nat) :
    ∀ l : List (String × Nat), (∀ p ∈ l, ∀ i, ¬ CandAt si f cap p i) →
      l.foldl (pickStep si f cap) none = none := by
  intro l
  induction l with
  | nil => intro _; rfl
  | cons p t ih =>
    intro h
    rw [List.foldl_cons, pickStep_not_cand si f cap p (h p (List.mem_cons_self p t)) none]
    exact ih (fun q hq => h q (List.mem_cons_of_mem _ hq))

theorem foldl_pickStep_isSome (si : AMap String Nat) (f cap : Nat) :
    ∀ l : List (String × Nat), (∃ p ∈ l, ∃ i, CandAt si f cap p i) →
      (l.foldl (pickStep si f cap) none).isSome := by
  intro l
  induction l with
  | nil => rintro ⟨p, hp, _⟩; simp at hp
  | cons p t ih =>
    rintro ⟨q, hq, j, hcq⟩
    rcases List.mem_cons.mp hq with rfl | hq'
    · rw [List.foldl_cons, pickStep_cand_none si f cap q j hcq]
      rcases foldl_pickStep_some si f cap t ⟨j, q.1, q.2⟩ with ⟨b, hb, _⟩
      simp [hb]
    · cases hstep : pickStep si f cap none p with
      | none => rw [List.foldl_cons, hstep]; exact ih ⟨q, hq', j, hcq⟩
      | some b1 =>
        rw [List.foldl_cons, hstep]
        rcases foldl_pickStep_some si f cap t b1 with ⟨b, hb, _⟩
        simp [hb]

theorem foldl_pickStep_best (si : AMap String Nat) (f cap : Nat) :
    ∀ (l : List (String × Nat)) (b : Best),
      l.foldl (pickStep si f cap) none = some b →
      (∃ p ∈ l, ∃ i, CandAt si f cap p i ∧ b = ⟨i, p.1, p.2⟩) ∧
      ∀ q ∈ l, ∀ j, CandAt si f cap q j → Beats b q j := by
  intro l
  induction l with
  | nil => intro b hb; simp [List.foldl_nil] at hb
  | cons p t ih =>
    intro b hb
    rw [List.foldl_cons] at hb
    cases hstep : pickStep si f cap none p with
    | none =>
      rw [hstep] at hb
      rcases ih b hb with ⟨⟨q, hq, hrest⟩, hdom⟩
      have hpnc : ∀ i, ¬ CandAt si f cap p i := by
        intro i hi
        rw [pickStep_cand_none si f cap p i hi] at hstep
        exact absurd hstep (by simp)
      refine ⟨⟨q, List.mem_cons_of_mem _ hq, hrest⟩, ?_⟩
      intro q' hq' j hcq
      rcases List.mem_cons.mp hq' with rfl | hq''
      · exact absurd hcq (hpnc j)
      · exact hdom q' hq'' j hcq
    | some b1 =>
      rw [hstep] at hb
      rcases pickStep_none_inv si f cap p b1 hstep with ⟨i, hcand, rfl⟩
      rcases foldl_pickStep_some si f cap t ⟨i, p.1, p.2⟩ with
        ⟨b', hb', hdom1, horig, hdomall⟩
      rw [hb'] at hb
      have hbe : b' = b := Option.some_inj.mp hb
      subst hbe
      refine ⟨?_, ?_⟩
      · rcases horig with hb1 | ⟨q, hq, j2, hc2, hbeq⟩
        · exact ⟨p, List.mem_cons_self p t, i, hcand, hb1⟩
        · exact ⟨q, List.mem_cons_of_mem _ hq, j2, hc2, hbeq⟩
      · intro q hq j hcq
        rcases List.mem_cons.mp hq with rfl | hq'
        · have hj : j = i := by
            have h1 := hcq.1
            rw [hcand.1] at h1
            exact (Option.some_inj.mp h1).symm
          subst hj
          unfold Beats
          simp only at hdom1
          omega
        · exact hdomall q hq' j hcq

/-- C8: `pickStatusFromSignals` returns `none` exactly when no status of
the score map whose rank lies in `[f, cap]` has a strictly positive score;
and when it returns a rank `r`, that rank belongs to a positively-scored
candidate in the interval that beats every other such candidate — strictly
higher score, or equal score and a rank at least as high (ties toward the
more advanced stage). -/
theorem pickStatusFromSignals_spec (order : List String) (row : Row)
    (f cap : Nat) :
    (pickStatusFromSignals row f cap order (buildStatusIndex order) = none ↔
      ∀ p ∈ scoreStatuses row order (buildStatusIndex order), ∀ i,
        amGet (buildStatusIndex order) p.1 = some i → f ≤ i → i ≤ cap →
          p.2 = 0) ∧
    (∀ r, pickStatusFromSignals row f cap order (buildStatusIndex order) = some r →
      ∃ p ∈ scoreStatuses row order (buildStatusIndex order),
        amGet (buildStatusIndex order) p.1 = some r ∧ f ≤ r ∧ r ≤ cap ∧ 0 < p.2 ∧
        ∀ q ∈ scoreStatuses row order (buildStatusIndex order), ∀ j,
          amGet (buildStatusIndex order) q.1 = some j → f ≤ j → j ≤ cap →
            0 < q.2 → (q.2 < p.2 ∨ (q.2 = p.2 ∧ j ≤ r))) := by
  constructor
  · constructor
    · intro hnone p hp i hidx h1 h2
      by_contra hne
      have hcand : CandAt (buildStatusIndex order) f cap p i :=
        ⟨hidx, h1, h2, by omega⟩
      have := foldl_pickStep_isSome (buildStatusIndex order) f cap
        (scoreStatuses row order (buildStatusIndex order)) ⟨p, hp, i, hcand⟩
      unfold pickStatusFromSignals at hnone
      rw [Option.map_eq_none'] at hnone
      rw [hnone] at this
      simp at this
    · intro hall
      unfold pickStatusFromSignals
      rw [Option.map_eq_none']
      apply foldl_pickStep_none
      intro p hp i hcand
      rcases hcand with ⟨hidx, h1, h2, h3⟩
      have := hall p hp i hidx h1 h2
      omega
  · intro r hr
    unfold pickStatusFromSignals at hr
    rcases Option.map_eq_some'.mp hr with ⟨b, hb, hbr⟩
    rcases foldl_pickStep_best (buildStatusIndex order) f cap _ b hb with
      ⟨⟨p, hp, i, hcand, hbeq⟩, hdom⟩
    have hir : i = r := by rw [hbeq] at hbr; exact hbr
    subst hir
    rcases hcand with ⟨hidx, h1, h2, h3⟩
    refine ⟨p, hp, hidx, h1, h2, h3, ?_⟩
    intro q hq j hjidx hj1 hj2 hj3
    have := hdom q hq j ⟨hjidx, hj1, hj2, hj3⟩
    unfold Beats at this
    rw [hbeq] at this
    simpa using this

/-- Witness for `pickStatusFromSignals_spec`: its positive direction applied
at a concrete input (`permRowField` scores positively only for
`"Field Work in Progress"`, rank 1 of `permOrder`). -/
theorem pickStatusFromSignals_spec_witness :
    ∃ p ∈ scoreStatuses permRowField permOrder (buildStatusIndex permOrder),
      amGet (buildStatusIndex permOrder) p.1 = some 1 ∧ 0 ≤ 1 ∧ 1 ≤ 2 ∧ 0 < p.2 ∧
      ∀ q ∈ scoreStatuses permRowField permOrder (buildStatusIndex permOrder), ∀ j,
        amGet (buildStatusIndex permOrder) q.1 = some j → 0 ≤ j → j ≤ 2 →
          0 < q.2 → (q.2 < p.2 ∨ (q.2 = p.2 ∧ j ≤ 1)) :=
  (pickStatusFromSignals_spec permOrder permRowField 0 2).2 1 (by rfl)

/-! ## Grouping structure -/

/-- The entries (row, original position) of job `k` among the rows of `l`,
positions counted from `i`: the specification of what `groupRows` collects
per key. -/
def entriesForFrom (i : Nat) (l : List Row) (k : String) : List Entry :=
  match l with
  | [] => []
  | r :: rest =>
    if r.job_number = k then ⟨r, i⟩ :: entriesForFrom (i + 1) rest k
    else entriesForFrom (i + 1) rest k

/-- A group map's value at `k` (`[]` when absent). -/
def groupVal (gs : AMap String (List Entry)) (k : String) : List Entry :=
  (amGet gs k).getD []

theorem addToGroup_val (gs : AMap String (List Entry)) (k : String) (e : Entry)
    (k' : String) :
    groupVal (addToGroup gs k e) k' =
      if k' = k then groupVal gs k' ++ [e] else groupVal gs k' := by
  induction gs with
  | nil =>
    by_cases h : k' = k
    · subst h
      simp [addToGroup, groupVal, amGet]
    · have h2 : ¬ k = k' := fun hh => h hh.symm
      simp [addToGroup, groupVal, amGet, h, h2]
  | cons g rest ih =>
    by_cases hg : g.1 = k
    · by_cases h : k' = k
      · subst h
        simp [addToGroup, groupVal, amGet, hg]
      · have h2 : ¬ g.1 = k' := fun hh => h (hh.symm.trans hg)
        have h3 : ¬ k = k' := fun hh => h2 (hg.trans hh)
        simp [addToGroup, groupVal, amGet, hg, h, h2, h3]
    · by_cases hgk : g.1 = k'
      · have h : ¬ k' = k := fun hh => hg (hgk.trans hh)
        simp [addToGroup, groupVal, amGet, hg, hgk, h]
      · simpa [addToGroup, groupVal, amGet, hg, hgk] using ih

theorem groupRowsAux_val (l : List Row) :
    ∀ (i : Nat) (gs : AMap String (List Entry)) (k : String),
      groupVal (groupRowsAux i gs l) k = groupVal gs k ++ entriesForFrom i l k := by
  induction l with
  | nil => intro i gs k; simp [groupRowsAux, entriesForFrom]
  | cons r rest ih =>
    intro i gs k
    simp only [groupRowsAux, entriesForFrom]
    rw [ih]
    rw [addToGroup_val]
    by_cases h : k = r.job_number
    · rw [if_pos h, if_pos h.symm]
      simp
    · rw [if_neg h, if_neg (fun hh => h hh.symm)]

theorem groupRows_val (l : List Row) (k : String) :
    groupVal (groupRows l) k = entriesForFrom 0 l k := by
  have := groupRowsAux_val l 0 [] k
  simpa [groupRows, groupVal, amGet] using this

theorem addToGroup_keys (gs : AMap String (List Entry)) (k : String) (e : Entry) :
    (addToGroup gs k e).map Prod.fst =
      if k ∈ gs.map Prod.fst then gs.map Prod.fst else gs.map Prod.fst ++ [k] := by
  induction gs with
  | nil => simp [addToGroup]
  | cons g rest ih =>
    by_cases hg : g.1 = k
    · simp [addToGroup, hg]
    · have : ¬ k = g.1 := fun hh => hg hh.symm
      simp only [addToGroup, if_neg hg, List.map_cons, List.mem_cons, this,
        false_or]
      rw [ih]
      by_cases hk : k ∈ rest.map Prod.fst <;> simp [hk]

theorem addToGroup_keys_nodup (gs : AMap String (List Entry)) (k : String)
    (e : Entry) (h : (gs.map Prod.fst).Nodup) :
    ((addToGroup gs k e).map Prod.fst).Nodup := by
  rw [addToGroup_keys]
  by_cases hk : k ∈ gs.map Prod.fst
  · simpa [hk]
  · simp only [hk, if_false]
    rw [List.nodup_append]
    refine ⟨h, List.nodup_singleton k, ?_⟩
    intro a ha hb
    rw [List.mem_singleton] at hb
    subst hb
    exact hk ha

theorem groupRowsAux_keys_nodup (l : List Row) :
    ∀ (i : Nat) (gs : AMap String (List Entry)),
      (gs.map Prod.fst).Nodup → ((groupRowsAux i gs l).map Prod.fst).Nodup := by
  induction l with
  | nil => intro i gs h; exact h
  | cons r rest ih =>
    intro i gs h
    exact ih _ _ (addToGroup_keys_nodup gs r.job_number ⟨r, i⟩ h)

theorem groupRows_keys_nodup (l : List Row) :
    ((groupRows l).map Prod.fst).Nodup :=
  groupRowsAux_keys_nodup l 0 [] (by simp)

theorem amGet_of_mem_nodup {α β : Type} [DecidableEq α] (m : AMap α β)
    (h : (m.map Prod.fst).Nodup) (p : α × β) (hp : p ∈ m) :
    amGet m p.1 = some p.2 := by
  induction m with
  | nil => simp at hp
  | cons q rest ih =>
    rcases List.mem_cons.mp hp with rfl | hp'
    · simp [amGet]
    · have hq : q.1 ≠ p.1 := by
        intro he
        have : p.1 ∈ rest.map Prod.fst := List.mem_map_of_mem Prod.fst hp'
        rw [← he] at this
        exact (List.nodup_cons.mp (by simpa using h)).1 this
      simp only [amGet, if_neg hq]
      exact ih (List.nodup_cons.mp (by simpa using h)).2 hp'

/-- Every group of `groupRows l` holds exactly the entries of its key. -/
theorem groupRows_mem_val (l : List Row) (g : String × List Entry)
    (hg : g ∈ groupRows l) : g.2 = entriesForFrom 0 l g.1 := by
  have h1 := amGet_of_mem_nodup (groupRows l) (groupRows_keys_nodup l) g hg
  have h2 := groupRows_val l g.1
  rw [groupVal, h1] at h2
  simpa using h2

theorem entriesForFrom_mem (l : List Row) :
    ∀ (i : Nat) (k : String) (e : Entry), e ∈ entriesForFrom i l k →
      e.row.job_number = k ∧ ∃ j, l[j]? = some e.row ∧ e.index = i + j := by
  induction l with
  | nil => intro i k e he; simp [entriesForFrom] at he
  | cons r rest ih =>
    intro i k e he
    by_cases hr : r.job_number = k
    · rw [entriesForFrom, if_pos hr] at he
      rcases List.mem_cons.mp he with rfl | he'
      · exact ⟨hr, 0, by simp, by show i = i + 0; omega⟩
      · rcases ih (i + 1) k e he' with ⟨h1, j, hj, hidx⟩
        exact ⟨h1, j + 1, by simpa using hj, by omega⟩
    · rw [entriesForFrom, if_neg hr] at he
      rcases ih (i + 1) k e he with ⟨h1, j, hj, hidx⟩
      exact ⟨h1, j + 1, by simpa using hj, by omega⟩

theorem entriesForFrom_mem_of (l : List Row) :
    ∀ (i j : Nat) (k : String) (r : Row), l[j]? = some r → r.job_number = k →
      (⟨r, i + j⟩ : Entry) ∈ entriesForFrom i l k := by
  induction l with
  | nil => intro i j k r hj; simp at hj
  | cons x rest ih =>
    intro i j k r hj hk
    cases j with
    | zero =>
      simp only [List.getElem?_cons_zero, Option.some_inj] at hj
      subst hj
      rw [entriesForFrom, if_pos hk]
      simp
    | succ j' =>
      simp only [List.getElem?_cons_succ] at hj
      have := ih (i + 1) j' k r hj hk
      have harith : i + 1 + j' = i + (j' + 1) := by omega
      rw [harith] at this
      by_cases hx : x.job_number = k
      · rw [entriesForFrom, if_pos hx]
        exact List.mem_cons_of_mem _ this
      · rw [entriesForFrom, if_neg hx]
        exact this

theorem entriesForFrom_index_lb (l : List Row) :
    ∀ (i : Nat) (k : String) (e : Entry), e ∈ entriesForFrom i l k → i ≤ e.index := by
  intro i k e he
  rcases entriesForFrom_mem l i k e he with ⟨_, j, _, hidx⟩
  omega

theorem entriesForFrom_index_sorted (l : List Row) :
    ∀ (i : Nat) (k : String),
      (entriesForFrom i l k).Pairwise (fun a b => a.index < b.index) := by
  induction l with
  | nil => intro i k; simp [entriesForFrom]
  | cons r rest ih =>
    intro i k
    by_cases hr : r.job_number = k
    · rw [entriesForFrom, if_pos hr]
      refine List.Pairwise.cons ?_ (ih (i + 1) k)
      intro e he
      have := entriesForFrom_index_lb rest (i + 1) k e he
      show i < e.index
      omega
    · rw [entriesForFrom, if_neg hr]
      exact ih (i + 1) k

theorem entriesForFrom_rows (l : List Row) :
    ∀ (i : Nat) (k : String),
      (entriesForFrom i l k).map Entry.row =
        l.filter (fun r => r.job_number == k) := by
  induction l with
  | nil => intro i k; simp [entriesForFrom]
  | cons r rest ih =>
    intro i k
    by_cases hr : r.job_number = k
    · rw [entriesForFrom, if_pos hr]
      simp only [List.map_cons]
      rw [ih]
      have : (r.job_number == k) = true := by simpa using hr
      simp [List.filter_cons, this]
    · rw [entriesForFrom, if_neg hr]
      rw [ih]
      have : (r.job_number == k) = false := by simpa using hr
      simp [List.filter_cons, this]

/-! ## Assignment lookup decomposition -/

theorem amGet_append {α β : Type} [DecidableEq α] (a b : AMap α β) (k : α) :
    amGet (a ++ b) k =
      match amGet a k with
      | some v => some v
      | none => amGet b k := by
  induction a with
  | nil => simp [amGet]
  | cons p rest ih =>
    by_cases hp : p.1 = k <;> simp [amGet, hp, ih]

theorem amGet_none_of_key_absent {α β : Type} [DecidableEq α] (m : AMap α β)
    (k : α) (h : k ∉ m.map Prod.fst) : amGet m k = none := by
  induction m with
  | nil => rfl
  | cons p rest ih =>
    simp only [List.map_cons, List.mem_cons] at h
    push_neg at h
    have hne : ¬ p.1 = k := fun he => h.1 he.symm
    simp only [amGet, if_neg hne]
    exact ih h.2

theorem amGet_mem_keys {α β : Type} [DecidableEq α] (m : AMap α β) (k : α)
    (h : amGet m k ≠ none) : k ∈ m.map Prod.fst := by
  by_contra hk
  exact h (amGet_none_of_key_absent m k hk)

theorem lookup_fold_found (F : List Entry → AMap Nat String) (i : Nat) :
    ∀ (gs : AMap String (List Entry)) (init : AMap Nat String) (v : String),
      amGet init i = some v →
      amGet (gs.foldl (fun asg g => asg ++ F g.2) init) i = some v := by
  intro gs
  induction gs with
  | nil => intro init v hv; exact hv
  | cons g rest ih =>
    intro init v hv
    rw [List.foldl_cons]
    refine ih (init ++ F g.2) v ?_
    rw [amGet_append, hv]

theorem lookup_fold_none (F : List Entry → AMap Nat String) (i : Nat) :
    ∀ (gs : AMap String (List Entry)) (init : AMap Nat String),
      (∀ g ∈ gs, amGet (F g.2) i = none) → amGet init i = none →
      amGet (gs.foldl (fun asg g => asg ++ F g.2) init) i = none := by
  intro gs
  induction gs with
  | nil => intro init _ hinit; exact hinit
  | cons g rest ih =>
    intro init hall hinit
    rw [List.foldl_cons]
    refine ih (init ++ F g.2) (fun q hq => hall q (List.mem_cons_of_mem _ hq)) ?_
    rw [amGet_append, hinit]
    exact hall g (List.mem_cons_self g rest)

/-- Folding group outputs: looking up a position yields what the (unique)
relevant group's output holds at it, provided every other group's output
misses the position. -/
theorem lookup_fold_main (F : List Entry → AMap Nat String) (i : Nat)
    (k : String) (es0 : List Entry) :
    ∀ (gs : AMap String (List Entry)) (init : AMap Nat String),
      (∀ g ∈ gs, g.1 ≠ k → amGet (F g.2) i = none) →
      (∀ g ∈ gs, g.1 = k → g.2 = es0) →
      amGet init i = none → k ∈ gs.map Prod.fst →
      amGet (gs.foldl (fun asg g => asg ++ F g.2) init) i = amGet (F es0) i := by
  intro gs
  induction gs with
  | nil => intro init _ _ _ hk; simp at hk
  | cons g rest ih =>
    intro init hother hsame hinit hk
    rw [List.foldl_cons]
    by_cases hg : g.1 = k
    · have hes := hsame g (List.mem_cons_self g rest) hg
      have hinit' : amGet (init ++ F g.2) i = amGet (F es0) i := by
        rw [amGet_append, hinit, hes]
      cases hF : amGet (F es0) i with
      | some v => exact lookup_fold_found F i rest (init ++ F g.2) v (by rw [hinit', hF])
      | none =>
        refine lookup_fold_none F i rest (init ++ F g.2) ?_ (by rw [hinit', hF])
        intro q hq
        by_cases hq1 : q.1 = k
        · rw [hsame q (List.mem_cons_of_mem _ hq) hq1, hF]
        · exact hother q (List.mem_cons_of_mem _ hq) hq1
    · have hnone := hother g (List.mem_cons_self g rest) hg
      have hinit' : amGet (init ++ F g.2) i = none := by
        rw [amGet_append, hinit, hnone]
      have hk2 : k ∈ g.1 :: rest.map Prod.fst := by
        simpa only [List.map_cons] using hk
      have hk' : k ∈ rest.map Prod.fst := by
        rcases List.mem_cons.mp hk2 with h | h
        · exact absurd h.symm hg
        · exact h
      exact ih (init ++ F g.2)
        (fun q hq => hother q (List.mem_cons_of_mem _ hq))
        (fun q hq => hsame q (List.mem_cons_of_mem _ hq)) hinit' hk'

/-! ## Sorting and per-group assignment structure -/

theorem insertEntry_perm (pd : String → Option Int) (e : Entry) :
    ∀ l : List Entry, (insertEntry pd e l).Perm (e :: l) := by
  intro l
  induction l with
  | nil => exact List.Perm.refl _
  | cons x xs ih =>
    unfold insertEntry
    by_cases h : cmpEntries pd e x ≤ 0
    · rw [if_pos h]
    · rw [if_neg h]
      exact (List.Perm.cons x ih).trans (List.Perm.swap e x xs)

theorem sortEntries_perm (pd : String → Option Int) :
    ∀ l : List Entry, (sortEntries pd l).Perm l := by
  intro l
  induction l with
  | nil => exact List.Perm.refl _
  | cons x xs ih =>
    unfold sortEntries
    exact (insertEntry_perm pd x (sortEntries pd xs)).trans (List.Perm.cons x ih)

theorem processGroup_keys (order : List String) (si : AMap String Nat) :
    ∀ (es : List Entry) (cur : String) (c : Nat),
      (processGroup order si cur c es).1.map Prod.fst = es.map Entry.index := by
  intro es
  induction es with
  | nil => intro cur c; rfl
  | cons e rest ih =>
    intro cur c
    by_cases he : isEmptyRow e.row <;> simp [processGroup, he, ih]

theorem v2_processGroup_keys (sset : List String) :
    ∀ (es : List Entry) (cur : String),
      (V2.processGroup sset cur es).map Prod.fst = es.map Entry.index := by
  intro es
  induction es with
  | nil => intro cur; rfl
  | cons e rest ih =>
    intro cur
    simp [V2.processGroup, ih]

/-- The status committed for an entry index is missing from a group's
output whenever the index belongs to none of the group's entries. -/
theorem groupOut_lookup_none (F : List Entry → AMap Nat String)
    (hFkeys : ∀ (es : List Entry) (j : Nat), amGet (F es) j ≠ none →
      ∃ e ∈ es, e.index = j)
    (es : List Entry) (j : Nat) (hj : ∀ e ∈ es, e.index ≠ j) :
    amGet (F es) j = none := by
  by_contra h
  rcases hFkeys es j h with ⟨e, he, hej⟩
  exact hj e he hej

/-- Looking up row `i`'s assignment in a grouped fold reduces to its own
job's group output. -/
theorem inferFold_lookup (F : List Entry → AMap Nat String)
    (hFkeys : ∀ (es : List Entry) (j : Nat), amGet (F es) j ≠ none →
      ∃ e ∈ es, e.index = j)
    (l : List Row) (i : Nat) (r : Row) (hir : l[i]? = some r) :
    amGet ((groupRows l).foldl (fun asg g => asg ++ F g.2) []) i =
      amGet (F (entriesForFrom 0 l r.job_number)) i := by
  apply lookup_fold_main F i r.job_number (entriesForFrom 0 l r.job_number)
  · intro g hg hgk
    apply groupOut_lookup_none F hFkeys
    intro e he hei
    rw [groupRows_mem_val l g hg] at he
    rcases entriesForFrom_mem l 0 g.1 e he with ⟨hjob, j, hj, hidx⟩
    have hji : j = i := by omega
    subst hji
    rw [hir] at hj
    have : e.row = r := (Option.some_inj.mp hj).symm
    rw [this] at hjob
    exact hgk hjob.symm
  · intro g hg hgk
    rw [groupRows_mem_val l g hg, hgk]
  · rfl
  · by_contra hk
    have h1 := amGet_none_of_key_absent (groupRows l) r.job_number hk
    have h2 := groupRows_val l r.job_number
    rw [groupVal, h1] at h2
    have h3 : (⟨r, 0 + i⟩ : Entry) ∈ entriesForFrom 0 l r.job_number :=
      entriesForFrom_mem_of l 0 i r.job_number r hir rfl
    rw [← h2] at h3
    simp at h3

/-! ## The explicit-status-only variant adopts member statuses verbatim -/

theorem v2_processGroup_at (sset : List String) :
    ∀ (es : List Entry) (cur : String) (t : Nat) (e : Entry),
      es[t]? = some e → e.row.status ∈ sset →
      (V2.processGroup sset cur es)[t]? = some (e.index, e.row.status) := by
  intro es
  induction es with
  | nil => intro cur t e ht; simp at ht
  | cons x rest ih =>
    intro cur t e ht hs
    cases t with
    | zero =>
      simp only [List.getElem?_cons_zero, Option.some_inj] at ht
      subst ht
      simp [V2.processGroup, hs]
    | succ t' =>
      simp only [List.getElem?_cons_succ] at ht
      simp only [V2.processGroup, List.getElem?_cons_succ]
      exact ih _ t' e ht hs

theorem entriesForFrom_index_nodup (l : List Row) (i : Nat) (k : String) :
    ((entriesForFrom i l k).map Entry.index).Nodup := by
  have h := entriesForFrom_index_sorted l i k
  have h2 : ((entriesForFrom i l k).map Entry.index).Pairwise (· < ·) :=
    List.pairwise_map.mpr h
  exact h2.imp Nat.ne_of_lt

/-- C10: in the second (explicit-status-only) variant, every row whose
explicit status field is a member of the status set is assigned exactly
that field's value — unconditionally, regardless of what any earlier row
of the group committed, so rank regression is permitted. -/
theorem v2_explicit_status_verbatim (pd : String → Option Int)
    (rows : List Row) (sset : List String) (i : Nat) (r : Row)
    (hir : rows[i]? = some r) (hs : r.status ∈ sset) :
    amGet (V2.inferStatuses pd rows sset) i = some r.status := by
  have hkeys : ∀ (es : List Entry) (j : Nat),
      amGet (V2.processGroup sset (initialStatus sset) (sortEntries pd es)) j ≠
        none → ∃ e ∈ es, e.index = j := by
    intro es j h
    have hj := amGet_mem_keys _ j h
    rw [v2_processGroup_keys] at hj
    rcases List.mem_map.mp hj with ⟨e, he, hei⟩
    exact ⟨e, (sortEntries_perm pd es).subset he, hei⟩
  have hdec := inferFold_lookup
    (fun es => V2.processGroup sset (initialStatus sset) (sortEntries pd es))
    hkeys rows i r hir
  have hdef : V2.inferStatuses pd rows sset =
      (groupRows rows).foldl
        (fun asg g =>
          asg ++ V2.processGroup sset (initialStatus sset) (sortEntries pd g.2))
        [] := rfl
  rw [hdef, hdec]
  have hmem0 : (⟨r, 0 + i⟩ : Entry) ∈ entriesForFrom 0 rows r.job_number :=
    entriesForFrom_mem_of rows 0 i r.job_number r hir rfl
  have hmem : (⟨r, i⟩ : Entry) ∈ entriesForFrom 0 rows r.job_number := by
    rwa [congrArg (Entry.mk r) (Nat.zero_add i)] at hmem0
  have hmem' : (⟨r, i⟩ : Entry) ∈
      sortEntries pd (entriesForFrom 0 rows r.job_number) :=
    ((sortEntries_perm pd _).mem_iff).mpr hmem
  rcases List.mem_iff_getElem?.mp hmem' with ⟨t, ht⟩
  have hout := v2_processGroup_at sset _ (initialStatus sset) t ⟨r, i⟩ ht hs
  have houtmem := List.getElem?_mem hout
  have hnd : ((V2.processGroup sset (initialStatus sset)
      (sortEntries pd (entriesForFrom 0 rows r.job_number))).map Prod.fst).Nodup := by
    rw [v2_processGroup_keys]
    rw [List.Perm.nodup_iff ((sortEntries_perm pd _).map Entry.index)]
    exact entriesForFrom_index_nodup rows 0 r.job_number
  exact amGet_of_mem_nodup _ hnd (i, r.status) houtmem

/-- Witness for `v2_explicit_status_verbatim` at a concrete input: the
second row of the C4 scenario has explicit status `"Estimating"`, ranked
below the first row's `"Complete"`, and is assigned `"Estimating"`
verbatim (regression permitted). -/
theorem v2_explicit_status_verbatim_witness :
    amGet (V2.inferStatuses pdEmpty [c4RowA, c4RowB]
      (buildStatusSet canonicalOrder)) 1 = some c4RowB.status :=
  v2_explicit_status_verbatim pdEmpty [c4RowA, c4RowB]
    (buildStatusSet canonicalOrder) 1 c4RowB (by rfl) (by decide)

/-! ## Comparator sign properties and sortedness -/

theorem cmpCharList_neg : ∀ a b : List Char, cmpCharList b a = -cmpCharList a b := by
  intro a
  induction a with
  | nil => intro b; cases b <;> simp [cmpCharList]
  | cons c cs ih =>
    intro b
    cases b with
    | nil => simp [cmpCharList]
    | cons d ds =>
      simp only [cmpCharList]
      by_cases h1 : c.toNat < d.toNat
      · rw [if_neg (by omega), if_pos h1, if_pos h1]
        decide
      · by_cases h2 : d.toNat < c.toNat
        · rw [if_pos h2, if_neg h1, if_pos h2]
        · rw [if_neg h2, if_neg h1, if_neg (by omega), if_neg (by omega)]
          exact ih ds

theorem strCmp_neg (a b : String) : strCmp b a = -strCmp a b :=
  cmpCharList_neg a.toList b.toList

theorem cmpTie_neg (a b : Entry) : cmpTie b a = -cmpTie a b := by
  unfold cmpTie
  by_cases h : a.row.dwrNumber = b.row.dwrNumber
  · rw [if_neg (fun hh => hh h.symm), if_neg (fun hh => hh h)]
    omega
  · rw [if_pos (fun hh => h hh.symm), if_pos h]
    exact strCmp_neg _ _

theorem cmpEntries_neg (pd : String → Option Int) (a b : Entry) :
    cmpEntries pd b a = -cmpEntries pd a b := by
  unfold cmpEntries
  cases h1 : pd a.row.date with
  | none =>
    cases h2 : pd b.row.date with
    | none => exact cmpTie_neg a b
    | some tb => exact cmpTie_neg a b
  | some ta =>
    cases h2 : pd b.row.date with
    | none => exact cmpTie_neg a b
    | some tb =>
      simp only []
      by_cases h : ta = tb
      · subst h
        rw [if_neg (by omega), if_neg (by omega)]
        exact cmpTie_neg a b
      · rw [if_pos (fun hh => h hh.symm), if_pos h]
        omega

theorem cmpEntries_refl (pd : String → Option Int) (a : Entry) :
    cmpEntries pd a a ≤ 0 := by
  have := cmpEntries_neg pd a a
  omega

theorem dates_le_of_cmp (pd : String → Option Int) (a b : Entry) (ta tb : Int)
    (ha : pd a.row.date = some ta) (hb : pd b.row.date = some tb)
    (h : cmpEntries pd a b ≤ 0) : ta ≤ tb := by
  unfold cmpEntries at h
  rw [ha, hb] at h
  simp only [] at h
  by_cases he : ta = tb
  · omega
  · rw [if_pos he] at h
    omega

theorem cmp_le_of_dates_lt (pd : String → Option Int) (a b : Entry)
    (ta tb : Int) (ha : pd a.row.date = some ta) (hb : pd b.row.date = some tb)
    (h : ta < tb) : cmpEntries pd a b ≤ 0 := by
  unfold cmpEntries
  rw [ha, hb]
  simp only []
  rw [if_pos (by omega : ta ≠ tb)]
  omega

theorem insertEntry_sorted (pd : String → Option Int) :
    ∀ (l : List Entry) (e : Entry),
      (∀ a ∈ e :: l, (pd a.row.date).isSome) →
      (∀ a ∈ e :: l, ∀ b ∈ e :: l, pd a.row.date = pd b.row.date → a = b) →
      l.Pairwise (fun a b => cmpEntries pd a b ≤ 0) →
      (insertEntry pd e l).Pairwise (fun a b => cmpEntries pd a b ≤ 0) := by
  intro l
  induction l with
  | nil => intro e _ _ _; simp [insertEntry]
  | cons x xs ih =>
    intro e hS hD hp
    unfold insertEntry
    by_cases h : cmpEntries pd e x ≤ 0
    · rw [if_pos h]
      refine List.Pairwise.cons ?_ hp
      intro y hy
      rcases List.mem_cons.mp hy with rfl | hy'
      · exact h
      · rcases Option.isSome_iff_exists.mp (hS e (by simp)) with ⟨te, hte⟩
        rcases Option.isSome_iff_exists.mp (hS x (by simp)) with ⟨tx, htx⟩
        rcases Option.isSome_iff_exists.mp
          (hS y (by simp [hy'])) with ⟨ty, hty⟩
        have hxy : cmpEntries pd x y ≤ 0 := List.rel_of_pairwise_cons hp hy'
        have h1 : te ≤ tx := dates_le_of_cmp pd e x te tx hte htx h
        have h2 : tx ≤ ty := dates_le_of_cmp pd x y tx ty htx hty hxy
        by_cases hey : e = y
        · subst hey; exact cmpEntries_refl pd e
        · have hne : te ≠ ty := by
            intro hh
            exact hey (hD e (by simp) y (by simp [hy']) (by rw [hte, hty, hh]))
          exact cmp_le_of_dates_lt pd e y te ty hte hty (by omega)
    · rw [if_neg h]
      have hS' : ∀ a ∈ e :: xs, (pd a.row.date).isSome := by
        intro a ha
        rcases List.mem_cons.mp ha with rfl | ha'
        · exact hS a (by simp)
        · exact hS a (by simp [ha'])
      have hD' : ∀ a ∈ e :: xs, ∀ b ∈ e :: xs,
          pd a.row.date = pd b.row.date → a = b := by
        intro a ha b hb
        have ha2 : a ∈ e :: x :: xs := by
          rcases List.mem_cons.mp ha with rfl | ha' <;> simp [*]
        have hb2 : b ∈ e :: x :: xs := by
          rcases List.mem_cons.mp hb with rfl | hb' <;> simp [*]
        exact hD a ha2 b hb2
      refine List.Pairwise.cons ?_ (ih e hS' hD' (List.Pairwise.of_cons hp))
      intro y hy
      rcases List.mem_cons.mp ((insertEntry_perm pd e xs).mem_iff.mp hy) with
        rfl | hy'
      · have := cmpEntries_neg pd y x
        omega
      · exact List.rel_of_pairwise_cons hp hy'

theorem sortEntries_sorted (pd : String → Option Int) :
    ∀ es : List Entry,
      (∀ a ∈ es, (pd a.row.date).isSome) →
      (∀ a ∈ es, ∀ b ∈ es, pd a.row.date = pd b.row.date → a = b) →
      (sortEntries pd es).Pairwise (fun a b => cmpEntries pd a b ≤ 0) := by
  intro es
  induction es with
  | nil => intro _ _; simp [sortEntries]
  | cons x xs ih =>
    intro hS hD
    unfold sortEntries
    have hmem : ∀ a ∈ x :: sortEntries pd xs, a ∈ x :: xs := by
      intro a ha
      rcases List.mem_cons.mp ha with rfl | ha'
      · simp
      · simp [(sortEntries_perm pd xs).mem_iff.mp ha']
    apply insertEntry_sorted pd (sortEntries pd xs) x
    · exact fun a ha => hS a (hmem a ha)
    · exact fun a ha b hb => hD a (hmem a ha) b (hmem b hb)
    · refine ih ?_ ?_
      · exact fun a ha => hS a (by simp [ha])
      · exact fun a ha b hb => hD a (by simp [ha]) b (by simp [hb])

/-! ## Assignments are determined by the row sequence -/

theorem processGroup_at (order : List String) (si : AMap String Nat) :
    ∀ (es : List Entry) (cur : String) (c : Nat) (t : Nat) (e : Entry),
      es[t]? = some e →
      ∃ s, (processGroup order si cur c es).1[t]? = some (e.index, s) := by
  intro es
  induction es with
  | nil => intro cur c t e ht; simp at ht
  | cons x rest ih =>
    intro cur c t e ht
    cases t with
    | zero =>
      simp only [List.getElem?_cons_zero, Option.some_inj] at ht
      subst ht
      by_cases hx : isEmptyRow x.row
      · exact ⟨"", by simp [processGroup, hx]⟩
      · exact ⟨commitStatus order cur (advanceIdx order si x.row c),
          by simp [processGroup, hx]⟩
    | succ t' =>
      simp only [List.getElem?_cons_succ] at ht
      by_cases hx : isEmptyRow x.row
      · rcases ih cur c t' e ht with ⟨s, hs⟩
        exact ⟨s, by simp [processGroup, hx, hs]⟩
      · rcases ih (commitStatus order cur (advanceIdx order si x.row c))
          (advanceIdx order si x.row c) t' e ht with ⟨s, hs⟩
        exact ⟨s, by simp [processGroup, hx, hs]⟩

theorem processGroup_snd_eq (order : List String) (si : AMap String Nat) :
    ∀ (es1 es2 : List Entry) (cur : String) (c : Nat),
      es1.map Entry.row = es2.map Entry.row →
      (processGroup order si cur c es1).1.map Prod.snd =
        (processGroup order si cur c es2).1.map Prod.snd := by
  intro es1
  induction es1 with
  | nil =>
    intro es2 cur c h
    cases es2 with
    | nil => rfl
    | cons e2 t2 => simp at h
  | cons e1 t1 ih =>
    intro es2 cur c h
    cases es2 with
    | nil => simp at h
    | cons e2 t2 =>
      simp only [List.map_cons, List.cons.injEq] at h
      obtain ⟨hrow, htail⟩ := h
      by_cases he : isEmptyRow e1.row
      · have he2 : isEmptyRow e2.row = true := by rw [← hrow]; exact he
        simp only [processGroup, he, he2, if_true, List.map_cons,
          List.cons.injEq, true_and]
        exact ih t2 cur c htail
      · have he2 : isEmptyRow e2.row = false := by
          rw [← hrow]; exact Bool.of_not_eq_true he
        simp only [processGroup, he, he2, Bool.false_eq_true, if_false,
          List.map_cons, List.cons.injEq]
        rw [hrow]
        exact ⟨rfl, ih t2 _ _ htail⟩

/-- Strict date order on rows: both dates parse and the first is earlier. -/
def dateLtRow (pd : String → Option Int) (r s : Row) : Prop :=
  ∃ x y, pd r.date = some x ∧ pd s.date = some y ∧ x < y

/-- The row projection of a sorted group with parseable, member-distinct
dates is strictly date-ordered. -/
theorem sorted_rows_pairwise (pd : String → Option Int) (es : List Entry)
    (hS : ∀ a ∈ es, (pd a.row.date).isSome)
    (hD : ∀ a ∈ es, ∀ b ∈ es, pd a.row.date = pd b.row.date → a = b)
    (hnd : es.Nodup) :
    ((sortEntries pd es).map Entry.row).Pairwise (dateLtRow pd) := by
  have hsorted := sortEntries_sorted pd es hS hD
  have hknd : (sortEntries pd es).Pairwise (fun a b => a ≠ b) :=
    (sortEntries_perm pd es).nodup_iff.mpr hnd
  have hboth := hsorted.and hknd
  rw [List.pairwise_map]
  refine hboth.imp_of_mem ?_
  intro a b ha hb hab
  have hams : a ∈ es := (sortEntries_perm pd es).subset ha
  have hbms : b ∈ es := (sortEntries_perm pd es).subset hb
  rcases Option.isSome_iff_exists.mp (hS a hams) with ⟨ta, hta⟩
  rcases Option.isSome_iff_exists.mp (hS b hbms) with ⟨tb, htb⟩
  have hle : ta ≤ tb := dates_le_of_cmp pd a b ta tb hta htb hab.1
  have hne : ta ≠ tb := by
    intro hh
    exact hab.2 (hD a hams b hbms (by rw [hta, htb, hh]))
  exact ⟨ta, tb, hta, htb, by omega⟩

theorem entriesFor_isSome (pd : String → Option Int) (l : List Row) (k : String)
    (hS : ∀ r' ∈ l, (pd r'.date).isSome) :
    ∀ a ∈ entriesForFrom 0 l k, (pd a.row.date).isSome := by
  intro a ha
  rcases entriesForFrom_mem l 0 k a ha with ⟨_, j, hj, _⟩
  exact hS a.row (List.getElem?_mem hj)

theorem entriesFor_date_inj (pd : String → Option Int) (l : List Row) (k : String)
    (hD : l.Pairwise (fun r s => r.job_number = s.job_number →
      pd r.date ≠ pd s.date)) :
    ∀ a ∈ entriesForFrom 0 l k, ∀ b ∈ entriesForFrom 0 l k,
      pd a.row.date = pd b.row.date → a = b := by
  intro a ha b hb hdate
  rcases entriesForFrom_mem l 0 k a ha with ⟨hka, ja, hja, hia⟩
  rcases entriesForFrom_mem l 0 k b hb with ⟨hkb, jb, hjb, hib⟩
  rcases List.getElem?_eq_some_iff.mp hja with ⟨hja_lt, hja_eq⟩
  rcases List.getElem?_eq_some_iff.mp hjb with ⟨hjb_lt, hjb_eq⟩
  rcases Nat.lt_trichotomy ja jb with hlt | heq | hgt
  · have := (List.pairwise_iff_getElem.mp hD) ja jb hja_lt hjb_lt hlt
    rw [hja_eq, hjb_eq] at this
    exact absurd hdate (this (hka.trans hkb.symm))
  · subst heq
    have hrow : a.row = b.row := by rw [← hja_eq, ← hjb_eq]
    have hidx : a.index = b.index := by omega
    cases a; cases b
    simp only at hrow hidx
    rw [hrow, hidx]
  · have := (List.pairwise_iff_getElem.mp hD) jb ja hjb_lt hja_lt hgt
    rw [hjb_eq, hja_eq] at this
    exact absurd hdate.symm (this (hkb.trans hka.symm))

theorem entriesFor_nodup (l : List Row) (k : String) :
    (entriesForFrom 0 l k).Nodup :=
  List.Nodup.of_map Entry.index (entriesForFrom_index_nodup l 0 k)

/-- C9, amended: permutation invariance holds when every row's date field
parses and, within each job group, parsed dates are pairwise distinct (so
the intra-group sort is fully determined by content and never falls back to
the original input position).  Then any row occurring in both lists
receives the same assignment in both runs. -/
theorem inferStatuses_perm_invariant_of_dates (pd : String → Option Int)
    (l1 l2 : List Row) (sset order : List String)
    (hperm : l2.Perm l1)
    (hS : ∀ r' ∈ l1, (pd r'.date).isSome)
    (hD : l1.Pairwise (fun r s => r.job_number = s.job_number →
      pd r.date ≠ pd s.date))
    (i j : Nat) (r : Row) (h1 : l1[i]? = some r) (h2 : l2[j]? = some r) :
    amGet (inferStatuses pd l1 sset order (buildStatusIndex order)) i =
      amGet (inferStatuses pd l2 sset order (buildStatusIndex order)) j := by
  have hFkeys : ∀ (es : List Entry) (t : Nat),
      amGet (groupAssignments pd sset order (buildStatusIndex order) es) t ≠
        none → ∃ e ∈ es, e.index = t := by
    intro es t h
    have ht := amGet_mem_keys _ t h
    have hkeys : (groupAssignments pd sset order (buildStatusIndex order)
        es).map Prod.fst = (sortEntries pd es).map Entry.index :=
      processGroup_keys order (buildStatusIndex order) (sortEntries pd es) _ _
    rw [hkeys] at ht
    rcases List.mem_map.mp ht with ⟨e, he, hei⟩
    exact ⟨e, (sortEntries_perm pd es).subset he, hei⟩
  have hdec1 : amGet (inferStatuses pd l1 sset order (buildStatusIndex order)) i =
      amGet (groupAssignments pd sset order (buildStatusIndex order)
        (entriesForFrom 0 l1 r.job_number)) i :=
    inferFold_lookup _ hFkeys l1 i r h1
  have hdec2 : amGet (inferStatuses pd l2 sset order (buildStatusIndex order)) j =
      amGet (groupAssignments pd sset order (buildStatusIndex order)
        (entriesForFrom 0 l2 r.job_number)) j :=
    inferFold_lookup _ hFkeys l2 j r h2
  have hS2 : ∀ r' ∈ l2, (pd r'.date).isSome := fun r' hr' => hS r' (hperm.subset hr')
  have hD2 : l2.Pairwise (fun r' s' => r'.job_number = s'.job_number →
      pd r'.date ≠ pd s'.date) :=
    (List.Perm.pairwise_iff
      (fun h hjob hdate => (h hjob.symm) hdate.symm) hperm).mpr hD
  -- the two groups have equal sorted row sequences
  have hsorted1 := sorted_rows_pairwise pd (entriesForFrom 0 l1 r.job_number)
    (entriesFor_isSome pd l1 r.job_number hS)
    (entriesFor_date_inj pd l1 r.job_number hD)
    (entriesFor_nodup l1 r.job_number)
  have hsorted2 := sorted_rows_pairwise pd (entriesForFrom 0 l2 r.job_number)
    (entriesFor_isSome pd l2 r.job_number hS2)
    (entriesFor_date_inj pd l2 r.job_number hD2)
    (entriesFor_nodup l2 r.job_number)
  have hrows1_perm : ((sortEntries pd (entriesForFrom 0 l1 r.job_number)).map
      Entry.row).Perm (l1.filter (fun r' => r'.job_number == r.job_number)) := by
    have := (sortEntries_perm pd (entriesForFrom 0 l1 r.job_number)).map Entry.row
    rwa [entriesForFrom_rows] at this
  have hrows2_perm : ((sortEntries pd (entriesForFrom 0 l2 r.job_number)).map
      Entry.row).Perm (l2.filter (fun r' => r'.job_number == r.job_number)) := by
    have := (sortEntries_perm pd (entriesForFrom 0 l2 r.job_number)).map Entry.row
    rwa [entriesForFrom_rows] at this
  have hfperm : (l2.filter (fun r' => r'.job_number == r.job_number)).Perm
      (l1.filter (fun r' => r'.job_number == r.job_number)) :=
    hperm.filter _
  have hrows12 : ((sortEntries pd (entriesForFrom 0 l1 r.job_number)).map
      Entry.row).Perm ((sortEntries pd (entriesForFrom 0 l2 r.job_number)).map
      Entry.row) :=
    hrows1_perm.trans (hfperm.symm.trans hrows2_perm.symm)
  haveI : IsAntisymm Row (dateLtRow pd) := by
    refine ⟨fun a b hab hba => ?_⟩
    rcases hab with ⟨x, y, hx, hy, hxy⟩
    rcases hba with ⟨x', y', hx', hy', hxy'⟩
    rw [hx] at hy'
    rw [hy] at hx'
    have e1 : x' = y := Option.some_inj.mp hx'.symm
    have e2 : y' = x := Option.some_inj.mp hy'.symm
    omega
  have heq : (sortEntries pd (entriesForFrom 0 l1 r.job_number)).map Entry.row =
      (sortEntries pd (entriesForFrom 0 l2 r.job_number)).map Entry.row :=
    List.eq_of_perm_of_sorted hrows12 hsorted1 hsorted2
  -- locate the row in both sorted groups
  have hmem1 : (⟨r, i⟩ : Entry) ∈ entriesForFrom 0 l1 r.job_number := by
    have := entriesForFrom_mem_of l1 0 i r.job_number r h1 rfl
    rwa [congrArg (Entry.mk r) (Nat.zero_add i)] at this
  have hmem2 : (⟨r, j⟩ : Entry) ∈ entriesForFrom 0 l2 r.job_number := by
    have := entriesForFrom_mem_of l2 0 j r.job_number r h2 rfl
    rwa [congrArg (Entry.mk r) (Nat.zero_add j)] at this
  rcases List.mem_iff_getElem?.mp
    ((sortEntries_perm pd _).mem_iff.mpr hmem1) with ⟨t1, ht1⟩
  rcases List.mem_iff_getElem?.mp
    ((sortEntries_perm pd _).mem_iff.mpr hmem2) with ⟨t2, ht2⟩
  have hrra : ((sortEntries pd (entriesForFrom 0 l1 r.job_number)).map
      Entry.row)[t1]? = some r := by
    rw [List.getElem?_map, ht1]
    rfl
  have hrrb : ((sortEntries pd (entriesForFrom 0 l1 r.job_number)).map
      Entry.row)[t2]? = some r := by
    rw [heq, List.getElem?_map, ht2]
    rfl
  have hndrows : ((sortEntries pd (entriesForFrom 0 l1 r.job_number)).map
      Entry.row).Nodup := by
    refine hsorted1.imp ?_
    intro a b hab
    rcases hab with ⟨x, y, hx, hy, hxy⟩
    intro habeq
    rw [habeq, hy] at hx
    have := Option.some_inj.mp hx
    omega
  have ht12 : t1 = t2 := by
    rcases List.getElem?_eq_some_iff.mp hrra with ⟨hlt1, he1⟩
    rcases List.getElem?_eq_some_iff.mp hrrb with ⟨hlt2, he2⟩
    exact (@List.Nodup.getElem_inj_iff _ _ hndrows t1 hlt1 t2 hlt2).mp
      (he1.trans he2.symm)
  subst ht12
  -- the committed statuses at that position agree
  rcases processGroup_at order (buildStatusIndex order) _
    (initialStatus sset)
    ((amGet (buildStatusIndex order) (initialStatus sset)).getD 0)
    t1 ⟨r, i⟩ ht1 with ⟨s1, hs1⟩
  rcases processGroup_at order (buildStatusIndex order) _
    (initialStatus sset)
    ((amGet (buildStatusIndex order) (initialStatus sset)).getD 0)
    t1 ⟨r, j⟩ ht2 with ⟨s2, hs2⟩
  have hsnd := processGroup_snd_eq order (buildStatusIndex order)
    (sortEntries pd (entriesForFrom 0 l1 r.job_number))
    (sortEntries pd (entriesForFrom 0 l2 r.job_number))
    (initialStatus sset)
    ((amGet (buildStatusIndex order) (initialStatus sset)).getD 0) heq
  have hms1 : ((processGroup order (buildStatusIndex order) (initialStatus sset)
      ((amGet (buildStatusIndex order) (initialStatus sset)).getD 0)
      (sortEntries pd (entriesForFrom 0 l1 r.job_number))).1.map
        Prod.snd)[t1]? = some s1 := by
    rw [List.getElem?_map, hs1]
    rfl
  have hms2 : ((processGroup order (buildStatusIndex order) (initialStatus sset)
      ((amGet (buildStatusIndex order) (initialStatus sset)).getD 0)
      (sortEntries pd (entriesForFrom 0 l2 r.job_number))).1.map
        Prod.snd)[t1]? = some s2 := by
    rw [List.getElem?_map, hs2]
    rfl
  have hseq : s1 = s2 := by
    rw [hsnd] at hms1
    rw [hms2] at hms1
    exact (Option.some_inj.mp hms1).symm
  -- final lookups
  have hnd1 : ((processGroup order (buildStatusIndex order) (initialStatus sset)
      ((amGet (buildStatusIndex order) (initialStatus sset)).getD 0)
      (sortEntries pd (entriesForFrom 0 l1 r.job_number))).1.map
        Prod.fst).Nodup := by
    rw [processGroup_keys]
    rw [List.Perm.nodup_iff ((sortEntries_perm pd _).map Entry.index)]
    exact entriesForFrom_index_nodup l1 0 r.job_number
  have hnd2 : ((processGroup order (buildStatusIndex order) (initialStatus sset)
      ((amGet (buildStatusIndex order) (initialStatus sset)).getD 0)
      (sortEntries pd (entriesForFrom 0 l2 r.job_number))).1.map
        Prod.fst).Nodup := by
    rw [processGroup_keys]
    rw [List.Perm.nodup_iff ((sortEntries_perm pd _).map Entry.index)]
    exact entriesForFrom_index_nodup l2 0 r.job_number
  have hget1 : amGet (groupAssignments pd sset order (buildStatusIndex order)
      (entriesForFrom 0 l1 r.job_number)) i = some s1 :=
    amGet_of_mem_nodup _ hnd1 (i, s1) (List.getElem?_mem hs1)
  have hget2 : amGet (groupAssignments pd sset order (buildStatusIndex order)
      (entriesForFrom 0 l2 r.job_number)) j = some s2 :=
    amGet_of_mem_nodup _ hnd2 (j, s2) (List.getElem?_mem hs2)
  rw [hdec1, hdec2, hget1, hget2, hseq]

/-- A concrete date parser for the permutation-invariance witness. -/
def pdW : String → Option Int :=
  fun s => if s = "d1" then some 1 else if s = "d2" then some 2 else none

/-- Field-role row dated `"d1"`, used by the permutation-invariance witness. -/
def wRowField : Row := mkRow "J" "" "d1" "" "" "field" ""

/-- Cad-role row dated `"d2"`, used by the permutation-invariance witness. -/
def wRowCad : Row := mkRow "J" "" "d2" "" "" "cad" ""

/-- Witness for `inferStatuses_perm_invariant_of_dates` at a concrete input:
the same field-role row (position 0 in one list, 1 in the other) receives
the same assignment in both orders once dates are distinct and parseable. -/
theorem inferStatuses_perm_invariant_of_dates_witness :
    amGet (inferStatuses pdW [wRowField, wRowCad] (buildStatusSet permOrder)
      permOrder (buildStatusIndex permOrder)) 0 =
      amGet (inferStatuses pdW [wRowCad, wRowField] (buildStatusSet permOrder)
        permOrder (buildStatusIndex permOrder)) 1 :=
  inferStatuses_perm_invariant_of_dates pdW [wRowField, wRowCad]
    [wRowCad, wRowField] (buildStatusSet permOrder) permOrder
    (List.Perm.swap wRowField wRowCad []) (by decide) (by decide)
    0 1 wRowField (by rfl) (by rfl)

end IS
